import Mathlib

/-!
Verification development for the turn-based stochastic transition engine of
the ViralSandbox repository (`src/viralsandbox.py`).

The engine is shallowly embedded: Python dicts mapping entity names to
integer counts become association lists (`Pop`), Python floats become
rationals, and the module-level random source becomes an explicit stream
`r : Nat → ℚ` of draws (the values returned by `random.random()`), threaded
through every Bernoulli trial by an index `k`.
-/

set_option linter.unusedVariables false

/-- Population state: association list from entity name to count, mirroring the
Python dict `self.entities` (insertion order preserved, one entry per key). -/
abbrev Pop := List (String × Int)

/-- Dict read with default 0, as in `entity_state.get(name, 0)`. -/
def Pop.getD : Pop → String → Int
  | [], _ => 0
  | p :: rest, e => if p.1 = e then p.2 else Pop.getD rest e

/-- Overwrite the value stored at a key (no-op when the key is absent),
as in `d[name] = v` for a present key. -/
def Pop.set : Pop → String → Int → Pop
  | [], _, _ => []
  | p :: rest, e, v => if p.1 = e then (p.1, v) :: Pop.set rest e v else p :: Pop.set rest e v

/-- Delete a key, as in `del d[name]`. -/
def Pop.erase : Pop → String → Pop
  | [], _ => []
  | p :: rest, e => if p.1 = e then Pop.erase rest e else p :: Pop.erase rest e

/-- Key-membership test, as in `name in d`. -/
def Pop.memB (s : Pop) (e : String) : Bool :=
  s.any fun p => p.1 == e

/-- The update `d[name] -= c; if d[name] <= 0: del d[name]` used on working
copies and in `apply_all_changes`. An absent key is read as 0 (at every call
site in the engine the key is present when `c` is positive). -/
def Pop.subDel (s : Pop) (e : String) (c : Int) : Pop :=
  if Pop.getD s e - c ≤ 0 then Pop.erase s e else Pop.set s e (Pop.getD s e - c)

/-- The update `d[name] = d.get-or-insert + c` used for produced entities in
`apply_all_changes` (add to an existing key, else insert at the end). -/
def Pop.addIns (s : Pop) (e : String) (c : Int) : Pop :=
  if Pop.memB s e then Pop.set s e (Pop.getD s e + c) else s ++ [(e, c)]

/-- Round-half-to-even on rationals, the rounding mode of Python's `round`. -/
def roundHalfEven (x : ℚ) : Int :=
  if x - (Int.floor x : ℚ) < 1/2 then Int.floor x
  else if 1/2 < x - (Int.floor x : ℚ) then Int.floor x + 1
  else if Int.floor x % 2 = 0 then Int.floor x else Int.floor x + 1

/-- Python's `round(x, d)` on our rational model of floats. -/
def pyRound (x : ℚ) (d : Nat) : ℚ :=
  (roundHalfEven (x * ((10 ^ d : ℕ) : ℚ)) : ℚ) / ((10 ^ d : ℕ) : ℚ)

/-- Number of successful Bernoulli trials among `n` consecutive draws starting
at stream index `k`: each trial is `random.random() < p`. -/
def countTrials (r : Nat → ℚ) (k n : Nat) (p : ℚ) : Nat :=
  (List.range n).countP fun i => decide (r (k + i) < p)

/-- One input specification of a transition rule: `{entity, count, consumed}`. -/
structure InputSpec where
  entity : String
  count : Nat
  consumed : Bool
deriving DecidableEq, Repr

/-- One output specification of a transition rule: `{entity, count}`. -/
structure OutputSpec where
  entity : String
  count : Nat
deriving DecidableEq, Repr

/-- A transition rule. A missing `interferon_amount` key is modelled as 0,
matching `rule.get("interferon_amount", 0.0)`. -/
structure Rule where
  name : String
  inputs : List InputSpec
  outputs : List OutputSpec
  probability : ℚ
  rule_type : String
  interferon_amount : ℚ
deriving DecidableEq, Repr

/-- The kind tag of a change record. -/
inductive ChangeType where
  | consumed
  | produced
  | degraded
deriving DecidableEq, Repr

/-- A change record `{type, entity, count, rule_name}` emitted during a turn. -/
structure Change where
  type : ChangeType
  entity : String
  count : Nat
  rule_name : String
deriving DecidableEq, Repr

/-- The slice of an entity's database record consulted by the engine:
only `entity_class` is read (by the interferon bonus computation). -/
structure EntityMeta where
  entity_class : String
deriving DecidableEq, Repr

/-- Immutable simulation configuration: the blueprint's rule list and
degradation-rate table, plus the optional entity-metadata manager
(`self.db_manager`, a `None`-able lookup). -/
structure SimCfg where
  transition_rules : List Rule
  degradation_rates : List (String × ℚ)
  db : Option (String → Option EntityMeta)

/-- Mutable simulation state: population, turn counter, interferon level. -/
structure SimState where
  entities : Pop
  turn_count : Nat
  interferon_level : ℚ

/-- Degradation-rate table read with the 0.05 default, as in
`self.degradation_rates.get(entity_name, 0.05)`. -/
def rateOf : List (String × ℚ) → String → ℚ
  | [], _ => 1/20
  | p :: rest, e => if p.1 = e then p.2 else rateOf rest e

/-- ASCII lower-casing of one character, the effect of Python's `str.lower()`
on the ASCII class names used by the engine. -/
def lowerChar (c : Char) : Char :=
  if 65 ≤ c.toNat ∧ c.toNat ≤ 90 then Char.ofNat (c.toNat + 32) else c

/-- ASCII lower-casing of a string, modelling `entity_class.lower()`. -/
def pyLower (s : String) : String :=
  String.mk (s.data.map lowerChar)

/-- Class-sensitivity table of `_calculate_interferon_degradation_bonus`
(`interferon_multipliers`), keyed by the lower-cased entity class. -/
def classMult (cls : String) : ℚ :=
  if pyLower cls = "rna" then 125/10000
  else if pyLower cls = "protein" then 75/10000
  else if pyLower cls = "dna" then 5/1000
  else 0

/-- Embeds `ViralSimulation._calculate_interferon_degradation_bonus`. -/
def calculate_interferon_degradation_bonus
    (db : Option (String → Option EntityMeta)) (lvl : ℚ) (e : String) : ℚ :=
  if lvl ≤ 0 then 0
  else
    match db with
    | none => 0
    | some f =>
      match f e with
      | none => 0
      | some meta => pyRound (lvl * classMult meta.entity_class) 4

/-- The `final_degradation_rate` computed per entity inside
`ViralSimulation.apply_degradation`. -/
def final_degradation_rate (drates : List (String × ℚ))
    (db : Option (String → Option EntityMeta)) (lvl : ℚ) (e : String) : ℚ :=
  min 1 (rateOf drates e * (1 + calculate_interferon_degradation_bonus db lvl e))

/-- Loop body of `ViralSimulation.apply_degradation`: iterate over the
snapshot's entries, one Bernoulli trial per individual, emitting a `degraded`
record when at least one individual degrades. Entries with non-positive count
or non-positive rate consume no draws. -/
def apply_degradation_go (cfg : SimCfg) (lvl : ℚ) (r : Nat → ℚ) :
    List (String × Int) → Nat → List Change × Nat
  | [], k => ([], k)
  | p :: rest, k =>
    if p.2 ≤ 0 then apply_degradation_go cfg lvl r rest k
    else
      if final_degradation_rate cfg.degradation_rates cfg.db lvl p.1 ≤ 0 then
        apply_degradation_go cfg lvl r rest k
      else
        let d := countTrials r k p.2.toNat (final_degradation_rate cfg.degradation_rates cfg.db lvl p.1)
        let q := apply_degradation_go cfg lvl r rest (k + p.2.toNat)
        (if 0 < d then ⟨ChangeType.degraded, p.1, d, "Natural degradation"⟩ :: q.1 else q.1, q.2)

/-- Embeds `ViralSimulation.apply_degradation`. -/
def apply_degradation (cfg : SimCfg) (lvl : ℚ) (state : Pop) (r : Nat → ℚ) (k : Nat) :
    List Change × Nat :=
  apply_degradation_go cfg lvl r state k

/-- The update `max_apps = min(max_apps, available // required)` with the
`float('inf')` sentinel modelled as `none`. -/
def minOpt : Option Nat → Nat → Nat
  | none, v => v
  | some m, v => min m v

/-- Loop of `ViralSimulation.get_max_applications_from_state`, with the
`float('inf')` sentinel modelled as `none`. -/
def maxAppsGo (state : Pop) : List InputSpec → Option Nat → Nat
  | [], acc => acc.getD 0
  | i :: rest, acc =>
    if Pop.getD state i.entity < (i.count : Int) then 0
    else maxAppsGo state rest (some (minOpt acc ((Pop.getD state i.entity).toNat / i.count)))

/-- Embeds `ViralSimulation.get_max_applications_from_state`. -/
def get_max_applications_from_state (rule : Rule) (state : Pop) : Nat :=
  maxAppsGo state rule.inputs none

/-- The per-slot Bernoulli trials of `apply_rule_to_state`: `maxApplications`
independent draws at the rule's probability for the two recognized rule types,
0 applications for any other rule type. -/
def actual_applications (rule : Rule) (m : Nat) (r : Nat → ℚ) (k : Nat) : Nat :=
  if rule.rule_type = "per_entity" then countTrials r k m rule.probability
  else if rule.rule_type = "per_pair" then countTrials r k m rule.probability
  else 0

/-- Number of random draws consumed by `apply_rule_to_state` once
`maxApplications` is non-zero. -/
def rule_draws (rule : Rule) (m : Nat) : Nat :=
  if rule.rule_type = "per_entity" ∨ rule.rule_type = "per_pair" then m else 0

/-- Embeds `ViralSimulation.apply_rule_to_state`: returns the change records
emitted for this rule plus the advanced draw index. -/
def apply_rule_to_state (rule : Rule) (state : Pop) (r : Nat → ℚ) (k : Nat) :
    List Change × Nat :=
  let m := get_max_applications_from_state rule state
  if m = 0 then ([], k)
  else
    let a := actual_applications rule m r k
    if a = 0 then ([], k + rule_draws rule m)
    else
      ((rule.inputs.filter fun i => i.consumed).map
          (fun i => ⟨ChangeType.consumed, i.entity, a * i.count, rule.name⟩)
        ++ rule.outputs.map fun o => ⟨ChangeType.produced, o.entity, a * o.count, rule.name⟩,
       k + rule_draws rule m)

/-- Total `consumed` amount recorded for entity `e`, the value of
`consumed_counts.get(e, 0)` in `_estimate_applications_from_changes`. -/
def consumedCount : List Change → String → Nat
  | [], _ => 0
  | ch :: rest, e =>
    (if ch.type = ChangeType.consumed ∧ ch.entity = e then ch.count else 0) + consumedCount rest e

/-- Total `produced` amount recorded for entity `e`, the value of
`produced_counts.get(e, 0)` in `_estimate_applications_from_changes`. -/
def producedCount : List Change → String → Nat
  | [], _ => 0
  | ch :: rest, e =>
    (if ch.type = ChangeType.produced ∧ ch.entity = e then ch.count else 0) + producedCount rest e

/-- Truthiness of the `consumed_counts` / `produced_counts` dicts: at least
one record of the given type exists. -/
def hasChangeOf (chs : List Change) (t : ChangeType) : Prop :=
  ∃ ch ∈ chs, ch.type = t

instance (chs : List Change) (t : ChangeType) : Decidable (hasChangeOf chs t) :=
  inferInstanceAs (Decidable (∃ ch ∈ chs, ch.type = t))

/-- Minimum of a list of naturals, 0 on the empty list (`min(vals)` is only
called on non-empty `vals` in the source). -/
def minList : List Nat → Nat
  | [] => 0
  | x :: xs => xs.foldl min x

/-- The `apps_from_consumed` local of
`_estimate_applications_from_changes`: the consumed-based estimate, with the
`None` of the source collapsed into 0 (both are falsy in the guard that uses
it). -/
def estimate_from_consumed (rule : Rule) (chs : List Change) : Nat :=
  if rule.inputs ≠ [] ∧ (rule.inputs.filter fun i => i.consumed) ≠ []
      ∧ hasChangeOf chs ChangeType.consumed then
    minList ((rule.inputs.filter fun i => i.consumed).map
      fun i => consumedCount chs i.entity / max 1 i.count)
  else 0

/-- Embeds `ViralSimulation._estimate_applications_from_changes`, including
the Python truthiness test `if apps_from_consumed:` which also falls through
to the produced-based estimate when the consumed-based minimum is 0. -/
def estimate_applications_from_changes (rule : Rule) (chs : List Change) : Nat :=
  if estimate_from_consumed rule chs ≠ 0 then estimate_from_consumed rule chs
  else
    if rule.outputs ≠ [] ∧ hasChangeOf chs ChangeType.produced then
      minList (rule.outputs.map fun o => producedCount chs o.entity / max 1 o.count)
    else 0

/-- Embeds `ViralSimulation._process_rule_interferon_effects`. -/
def process_rule_interferon_effects (rule : Rule) (chs : List Change) : ℚ :=
  if rule.interferon_amount ≤ 0 then 0
  else pyRound ((estimate_applications_from_changes rule chs : ℚ) * rule.interferon_amount) 2

/-- The in-pass working-copy update of `process_turn`: subtract only the
`consumed` deltas of a rule's change records. -/
def consume_working (w : Pop) (chs : List Change) : Pop :=
  chs.foldl
    (fun acc ch => if ch.type = ChangeType.consumed then Pop.subDel acc ch.entity (ch.count : Int) else acc) w

/-- The pre-pass working-copy update of `process_turn`: subtract the
`degraded` deltas so degraded individuals cannot take part in transitions. -/
def degrade_working (w : Pop) (chs : List Change) : Pop :=
  chs.foldl
    (fun acc ch => if ch.type = ChangeType.degraded then Pop.subDel acc ch.entity (ch.count : Int) else acc) w

/-- Result of the transition pass over the rule list. -/
structure RunOut where
  changes : List Change
  ifn : ℚ
  working : Pop
  next : Nat

/-- The rule loop of `process_turn`: apply each rule to the current working
copy, accumulate its change records and positive interferon contributions,
and subtract its consumed deltas from the working copy. -/
def run_rules : List Rule → Pop → (Nat → ℚ) → Nat → RunOut
  | [], w, _, k => ⟨[], 0, w, k⟩
  | rule :: rest, w, r, k =>
    let p := apply_rule_to_state rule w r k
    let v := process_rule_interferon_effects rule p.1
    let w1 := consume_working w p.1
    let q := run_rules rest w1 r p.2
    ⟨p.1 ++ q.changes, if 0 < v then v + q.ifn else q.ifn, q.working, q.next⟩

/-- Per-type totals of this turn's change records, in first-occurrence order:
the `consumed` / `produced` / `degraded` dicts built by `apply_all_changes`. -/
def groupTotals (chs : List Change) (t : ChangeType) : Pop :=
  chs.foldl
    (fun acc ch => if ch.type = t then Pop.addIns acc ch.entity (ch.count : Int) else acc) []

/-- Embeds `ViralSimulation.apply_all_changes`: commit degraded, consumed and
produced totals (in that order) to the real population. -/
def apply_all_changes (entities : Pop) (chs : List Change) : Pop :=
  let e1 := (groupTotals chs ChangeType.degraded).foldl
    (fun s p => Pop.subDel s p.1 p.2) entities
  let e2 := (groupTotals chs ChangeType.consumed).foldl
    (fun s p => Pop.subDel s p.1 p.2) e1
  (groupTotals chs ChangeType.produced).foldl
    (fun s p => Pop.addIns s p.1 p.2) e2

/-- Result of one `process_turn` call: new state, the turn's change records,
and the advanced draw index. -/
structure TurnOut where
  state : SimState
  changes : List Change
  next : Nat

/-- The post-degradation working copy fed to the transition pass. -/
def post_degradation_working (cfg : SimCfg) (st : SimState) (r : Nat → ℚ) (k : Nat) : Pop :=
  degrade_working st.entities (apply_degradation cfg st.interferon_level st.entities r k).1

/-- The transition pass of one turn, run against the post-degradation
working copy. -/
def transition_pass (cfg : SimCfg) (st : SimState) (r : Nat → ℚ) (k : Nat) : RunOut :=
  run_rules cfg.transition_rules (post_degradation_working cfg st r k) r
    (apply_degradation cfg st.interferon_level st.entities r k).2

/-- Embeds `ViralSimulation.process_turn`: degradation pass, transition pass,
interferon decay then generation (capped at 100), and commit. -/
def process_turn (cfg : SimCfg) (st : SimState) (r : Nat → ℚ) (k : Nat) : TurnOut :=
  let deg := apply_degradation cfg st.interferon_level st.entities r k
  let run := transition_pass cfg st r k
  let changes := deg.1 ++ run.changes
  let lvl1 := max 0 (st.interferon_level - 1)
  let lvl2 := if 0 < run.ifn then min 100 (lvl1 + run.ifn) else lvl1
  ⟨⟨apply_all_changes st.entities changes, st.turn_count + 1, lvl2⟩, changes, run.next⟩

/-- One rule-affecting effect of a gene module, as dispatched by
`VirusBuilder.get_virus_capabilities`: `add_transition` / `add_production`
both add a rule, `modify_transition` carries optional multipliers, and every
other effect type is ignored by the rule-accumulation loop. -/
inductive Effect where
  | addRule (r : Rule)
  | modifyRule (targetName : String) (probMult : Option ℚ) (ifnMult : Option ℚ)
  | other
deriving Repr

/-- The in-place update applied to a rule matched by a `modify_transition`
effect: probability is multiplied and capped at 1.0; the interferon amount is
multiplied (and re-rounded to 2 decimals) only when it is already positive. -/
def applyModification (pm im : Option ℚ) (r : Rule) : Rule :=
  let r1 :=
    match pm with
    | some m => { r with probability := min 1 (r.probability * m) }
    | none => r
  match im with
  | some m =>
    if 0 < r1.interferon_amount then
      { r1 with interferon_amount := pyRound (r1.interferon_amount * m) 2 }
    else r1
  | none => r1

/-- One step of the rule-accumulation loop of `get_virus_capabilities`:
an added rule is appended (with its interferon amount normalized to 2
decimals); a modification is applied to every rule in the accumulation whose
name matches the target (the Python loop has no `break`). -/
def applyEffect (rules : List Rule) : Effect → List Rule
  | Effect.addRule r => rules ++ [{ r with interferon_amount := pyRound r.interferon_amount 2 }]
  | Effect.modifyRule n pm im => rules.map fun ru => if ru.name = n then applyModification pm im ru else ru
  | Effect.other => rules

/-- The rule-accumulation part of `VirusBuilder.get_virus_capabilities`:
effects in module order, left to right. -/
def assemble_transition_rules (effects : List Effect) : List Rule :=
  effects.foldl applyEffect []

/-- Modelled from the claim's wording (C6): a modification updates only the
most-recently-added rule whose name matches the target. Used to compare the
claimed semantics with the source's all-matches semantics. -/
def modifyLastMatch (n : String) (pm im : Option ℚ) : List Rule → List Rule
  | [] => []
  | r :: rest =>
    if rest.any fun x => x.name == n then r :: modifyLastMatch n pm im rest
    else if r.name = n then applyModification pm im r :: rest
    else r :: rest

/-- Modelled from the claim's wording (C6): the rule accumulation in which
each modification touches only the most-recently-added match. -/
def assemble_transition_rules_claim (effects : List Effect) : List Rule :=
  effects.foldl
    (fun rules e =>
      match e with
      | Effect.addRule r => rules ++ [{ r with interferon_amount := pyRound r.interferon_amount 2 }]
      | Effect.modifyRule n pm im => modifyLastMatch n pm im rules
      | Effect.other => rules) []

/-- Modelled from the claim's wording (C7): the application-count recovery
described by the spec, without the source's truthiness fallthrough — if the
rule has consumed inputs and consumption records exist, the consumed-based
minimum is the result even when that minimum is 0. -/
def estimate_applications_claim (rule : Rule) (chs : List Change) : Nat :=
  if (rule.inputs.filter fun i => i.consumed) ≠ [] ∧ hasChangeOf chs ChangeType.consumed then
    minList ((rule.inputs.filter fun i => i.consumed).map
      fun i => consumedCount chs i.entity / i.count)
  else
    if hasChangeOf chs ChangeType.produced then
      minList (rule.outputs.map fun o => producedCount chs o.entity / o.count)
    else 0

/-- Draw stream whose first 6 draws are 0 (success against probability 1,
since `random.random() < 1` holds) and whose later draws are 1 (failure):
6 of 10 Bernoulli slots succeed. -/
def rSixOfTen : Nat → ℚ := fun i => if i < 6 then 0 else 1

/-- A rule listing the same consumed entity twice (permitted by the blueprint
format: inputs are a plain list). -/
def dupRule : Rule := ⟨"R", [⟨"x", 1, true⟩, ⟨"x", 1, true⟩], [], 1, "per_entity", 0⟩

/-- Configuration exercising `dupRule` with zero degradation. -/
def dupCfg : SimCfg := ⟨[dupRule], [("x", 0)], none⟩

/-- Ten copies of "x", interferon level 0. -/
def dupSt : SimState := ⟨[("x", 10)], 0, 0⟩

/-- A plain consuming/producing rule used by concrete witnesses. -/
def wRule : Rule := ⟨"W", [⟨"x", 2, true⟩], [⟨"y", 3⟩], 1, "per_entity", 1/2⟩

/-- Witness configuration around `wRule`, zero degradation, no metadata. -/
def wCfg : SimCfg := ⟨[wRule], [("x", 0), ("y", 0)], none⟩

/-- Witness population: five copies of "x". -/
def wSt : SimState := ⟨[("x", 5)], 0, 0⟩

/-- The all-zero draw stream (every Bernoulli trial succeeds for any
positive probability). -/
def rZero : Nat → ℚ := fun _ => 0

/-- Extinction witness configuration: no rules, degradation rate 1. -/
def extCfg : SimCfg := ⟨[], [("v", 1)], none⟩

/-- Extinction witness state: three copies of "v", interferon level 40. -/
def extSt : SimState := ⟨[("v", 3)], 0, 40⟩

/-- Metadata lookup classifying every entity as RNA. -/
def dbRNA : String → Option EntityMeta := fun _ => some ⟨"RNA"⟩

/-- Two added rules sharing the name "R", then one modification of "R". -/
def modEffects : List Effect :=
  [Effect.addRule ⟨"R", [⟨"a", 1, true⟩], [], 2/5, "per_entity", 0⟩,
   Effect.addRule ⟨"R", [⟨"a", 1, true⟩], [], 4/5, "per_entity", 0⟩,
   Effect.modifyRule "R" (some (1/2)) none]

/-- A single added rule named "R" (for the no-matching-target witness). -/
def oneEffect : List Effect :=
  [Effect.addRule ⟨"R", [⟨"a", 1, true⟩], [], 2/5, "per_entity", 0⟩]

/-! ### Association-list lemmas -/

theorem Pop.getD_mem_or (s : Pop) (e : String) :
    Pop.getD s e = 0 ∨ (e, Pop.getD s e) ∈ s := by
  induction s with
  | nil => exact Or.inl rfl
  | cons p rest ih =>
    by_cases h : p.1 = e
    · right
      simp only [Pop.getD, if_pos h]
      rw [← h]
      exact List.mem_cons_self p rest
    · simp only [Pop.getD, if_neg h]
      rcases ih with h0 | hm
      · exact Or.inl h0
      · exact Or.inr (List.mem_cons_of_mem _ hm)

theorem Pop.getD_nonneg {s : Pop} (hs : ∀ p ∈ s, 0 ≤ p.2) (e : String) :
    0 ≤ Pop.getD s e := by
  rcases Pop.getD_mem_or s e with h | h
  · rw [h]
  · exact hs _ h

theorem Pop.getD_erase_self (s : Pop) (e : String) :
    Pop.getD (Pop.erase s e) e = 0 := by
  induction s with
  | nil => rfl
  | cons p rest ih =>
    by_cases h : p.1 = e
    · simpa [Pop.erase, h] using ih
    · simpa [Pop.erase, Pop.getD, h] using ih

theorem Pop.getD_erase_ne (s : Pop) {e e' : String} (h : e' ≠ e) :
    Pop.getD (Pop.erase s e) e' = Pop.getD s e' := by
  induction s with
  | nil => rfl
  | cons p rest ih =>
    by_cases hp : p.1 = e
    · have hne : ¬ p.1 = e' := fun hh => h (by rw [← hh]; exact hp)
      simp only [Pop.erase, if_pos hp, Pop.getD, if_neg hne]
      exact ih
    · by_cases hp' : p.1 = e'
      · simp only [Pop.erase, if_neg hp, Pop.getD, if_pos hp']
      · simp only [Pop.erase, if_neg hp, Pop.getD, if_neg hp']
        exact ih

theorem Pop.getD_set_self {s : Pop} {e : String} (h : Pop.getD s e ≠ 0) (v : Int) :
    Pop.getD (Pop.set s e v) e = v := by
  induction s with
  | nil => exact absurd rfl h
  | cons p rest ih =>
    by_cases hp : p.1 = e
    · simp [Pop.set, Pop.getD, hp]
    · simp only [Pop.getD, if_neg hp] at h
      simpa [Pop.set, Pop.getD, hp] using ih h

theorem Pop.getD_set_ne (s : Pop) {e e' : String} (h : e' ≠ e) (v : Int) :
    Pop.getD (Pop.set s e v) e' = Pop.getD s e' := by
  induction s with
  | nil => rfl
  | cons p rest ih =>
    by_cases hp : p.1 = e
    · have hne : ¬ p.1 = e' := fun hh => h (by rw [← hh]; exact hp)
      simp only [Pop.set, if_pos hp, Pop.getD, if_neg hne]
      exact ih
    · by_cases hp' : p.1 = e'
      · simp only [Pop.set, if_neg hp, Pop.getD, if_pos hp']
      · simp only [Pop.set, if_neg hp, Pop.getD, if_neg hp']
        exact ih

theorem Pop.mem_of_mem_erase {s : Pop} {e : String} {p : String × Int}
    (h : p ∈ Pop.erase s e) : p ∈ s := by
  induction s with
  | nil => simp [Pop.erase] at h
  | cons q rest ih =>
    by_cases hq : q.1 = e
    · simp only [Pop.erase, if_pos hq] at h
      exact List.mem_cons_of_mem _ (ih h)
    · simp only [Pop.erase, if_neg hq, List.mem_cons] at h
      rcases h with h | h
      · rw [h]; exact List.mem_cons_self q rest
      · exact List.mem_cons_of_mem _ (ih h)

theorem Pop.mem_set {s : Pop} {e : String} {v : Int} {p : String × Int}
    (h : p ∈ Pop.set s e v) : p.2 = v ∨ p ∈ s := by
  induction s with
  | nil => simp [Pop.set] at h
  | cons q rest ih =>
    by_cases hq : q.1 = e
    · simp only [Pop.set, if_pos hq, List.mem_cons] at h
      rcases h with h | h
      · exact Or.inl (by rw [h])
      · rcases ih h with h | h
        · exact Or.inl h
        · exact Or.inr (List.mem_cons_of_mem _ h)
    · simp only [Pop.set, if_neg hq, List.mem_cons] at h
      rcases h with h | h
      · exact Or.inr (by rw [h]; exact List.mem_cons_self q rest)
      · rcases ih h with h | h
        · exact Or.inl h
        · exact Or.inr (List.mem_cons_of_mem _ h)

theorem Pop.pos_subDel {s : Pop} (hs : ∀ p ∈ s, 0 < p.2) (e : String) (c : Int) :
    ∀ p ∈ Pop.subDel s e c, 0 < p.2 := by
  intro p hp
  unfold Pop.subDel at hp
  split at hp
  · exact hs _ (Pop.mem_of_mem_erase hp)
  · next h =>
    rcases Pop.mem_set hp with h2 | h2
    · rw [h2]; omega
    · exact hs _ h2

theorem Pop.getD_subDel_self (s : Pop) (e : String) {c : Int} (hc : 0 ≤ c) :
    Pop.getD (Pop.subDel s e c) e = max 0 (Pop.getD s e - c) := by
  unfold Pop.subDel
  split
  · next h => rw [Pop.getD_erase_self]; omega
  · next h =>
    have hne : Pop.getD s e ≠ 0 := by omega
    rw [Pop.getD_set_self hne]; omega

theorem Pop.getD_subDel_ne (s : Pop) {e e' : String} (h : e' ≠ e) (c : Int) :
    Pop.getD (Pop.subDel s e c) e' = Pop.getD s e' := by
  unfold Pop.subDel
  split
  · exact Pop.getD_erase_ne s h
  · exact Pop.getD_set_ne s h _

theorem Pop.pos_addIns {s : Pop} (hs : ∀ p ∈ s, 0 < p.2) {e : String} {c : Int}
    (hc : 0 < c) : ∀ p ∈ Pop.addIns s e c, 0 < p.2 := by
  intro p hp
  unfold Pop.addIns at hp
  split at hp
  · rcases Pop.mem_set hp with h2 | h2
    · have := Pop.getD_nonneg (fun q hq => le_of_lt (hs q hq)) e
      rw [h2]; omega
    · exact hs _ h2
  · rcases List.mem_append.mp hp with h2 | h2
    · exact hs _ h2
    · simp only [List.mem_singleton] at h2
      rw [h2]; exact hc

theorem Pop.nonneg_addIns {s : Pop} (hs : ∀ p ∈ s, 0 ≤ p.2) {e : String} {c : Int}
    (hc : 0 ≤ c) : ∀ p ∈ Pop.addIns s e c, 0 ≤ p.2 := by
  intro p hp
  unfold Pop.addIns at hp
  split at hp
  · rcases Pop.mem_set hp with h2 | h2
    · have := Pop.getD_nonneg hs e
      rw [h2]; omega
    · exact hs _ h2
  · rcases List.mem_append.mp hp with h2 | h2
    · exact hs _ h2
    · simp only [List.mem_singleton] at h2
      rw [h2]; exact hc

theorem Pop.erase_of_forall_ne {s : Pop} {e : String} (h : ∀ p ∈ s, p.1 ≠ e) :
    Pop.erase s e = s := by
  induction s with
  | nil => rfl
  | cons p rest ih =>
    have hp : ¬ p.1 = e := h p (List.mem_cons_self p rest)
    rw [Pop.erase, if_neg hp, ih fun q hq => h q (List.mem_cons_of_mem _ hq)]

/-! ### Trials, rounding, change-record counting -/

theorem countTrials_le (r : Nat → ℚ) (k n : Nat) (p : ℚ) :
    countTrials r k n p ≤ n := by
  calc countTrials r k n p ≤ (List.range n).length := List.countP_le_length _
  _ = n := List.length_range n

theorem countTrials_eq_of_all (r : Nat → ℚ) (k n : Nat) {p : ℚ}
    (h : ∀ i, i < n → r (k + i) < p) : countTrials r k n p = n := by
  unfold countTrials
  rw [List.countP_eq_length.mpr, List.length_range]
  intro i hi
  exact decide_eq_true (h i (List.mem_range.mp hi))

theorem roundHalfEven_intCast (z : Int) : roundHalfEven (z : ℚ) = z := by
  unfold roundHalfEven
  rw [Int.floor_intCast]
  norm_num

theorem roundHalfEven_nonneg {x : ℚ} (h : 0 ≤ x) : 0 ≤ roundHalfEven x := by
  have hf : (0 : Int) ≤ Int.floor x := Int.floor_nonneg.mpr h
  unfold roundHalfEven
  split
  · exact hf
  · split
    · omega
    · split <;> omega

theorem pyRound_nonneg {x : ℚ} (d : Nat) (h : 0 ≤ x) : 0 ≤ pyRound x d := by
  unfold pyRound
  have h10 : (0 : ℚ) < ((10 ^ d : ℕ) : ℚ) := by positivity
  have hr : (0 : Int) ≤ roundHalfEven (x * ((10 ^ d : ℕ) : ℚ)) :=
    roundHalfEven_nonneg (by positivity)
  have : (0 : ℚ) ≤ (roundHalfEven (x * ((10 ^ d : ℕ) : ℚ)) : ℚ) := by exact_mod_cast hr
  positivity

theorem pyRound_eq_self {x : ℚ} {d : Nat} {z : Int}
    (h : x * ((10 ^ d : ℕ) : ℚ) = (z : ℚ)) : pyRound x d = x := by
  have h10 : ((10 ^ d : ℕ) : ℚ) ≠ 0 := by positivity
  unfold pyRound
  rw [h, roundHalfEven_intCast, ← h]
  field_simp

theorem classMult_nonneg (cls : String) : 0 ≤ classMult cls := by
  unfold classMult
  split
  · norm_num
  · split
    · norm_num
    · split
      · norm_num
      · exact le_refl 0

theorem interferon_bonus_nonneg (db : Option (String → Option EntityMeta))
    (lvl : ℚ) (e : String) : 0 ≤ calculate_interferon_degradation_bonus db lvl e := by
  unfold calculate_interferon_degradation_bonus
  split
  · exact le_refl 0
  · next hlvl =>
    cases db with
    | none => exact le_refl 0
    | some f =>
      dsimp only
      cases hfe : f e with
      | none => simp only [hfe]; exact le_refl 0
      | some meta =>
        simp only [hfe]
        exact pyRound_nonneg 4 (mul_nonneg (le_of_lt (lt_of_not_le hlvl)) (classMult_nonneg _))

theorem consumedCount_append (l1 l2 : List Change) (e : String) :
    consumedCount (l1 ++ l2) e = consumedCount l1 e + consumedCount l2 e := by
  induction l1 with
  | nil => simp [consumedCount]
  | cons ch rest ih => simp [consumedCount, ih]; ring

theorem consumedCount_eq_zero {l : List Change} {e : String}
    (h : ∀ ch ∈ l, ¬(ch.type = ChangeType.consumed ∧ ch.entity = e)) :
    consumedCount l e = 0 := by
  induction l with
  | nil => rfl
  | cons ch rest ih =>
    rw [consumedCount, if_neg (h ch (List.mem_cons_self ch rest)),
      ih fun c hc => h c (List.mem_cons_of_mem _ hc)]

theorem producedCount_append (l1 l2 : List Change) (e : String) :
    producedCount (l1 ++ l2) e = producedCount l1 e + producedCount l2 e := by
  induction l1 with
  | nil => simp [producedCount]
  | cons ch rest ih => simp [producedCount, ih]; ring

theorem producedCount_eq_zero {l : List Change} {e : String}
    (h : ∀ ch ∈ l, ¬(ch.type = ChangeType.produced ∧ ch.entity = e)) :
    producedCount l e = 0 := by
  induction l with
  | nil => rfl
  | cons ch rest ih =>
    rw [producedCount, if_neg (h ch (List.mem_cons_self ch rest)),
      ih fun c hc => h c (List.mem_cons_of_mem _ hc)]

/-! ### Maximum-applications lemmas -/

theorem minOpt_le_right (acc : Option Nat) (v : Nat) : minOpt acc v ≤ v := by
  cases acc with
  | none => exact le_refl v
  | some m => exact Nat.min_le_right m v

theorem maxAppsGo_le_acc (state : Pop) (l : List InputSpec) :
    ∀ m : Nat, maxAppsGo state l (some m) ≤ m := by
  induction l with
  | nil => intro m; exact le_refl m
  | cons i rest ih =>
    intro m
    rw [maxAppsGo]
    split
    · exact Nat.zero_le m
    · exact le_trans (ih _) (Nat.min_le_left _ _)

theorem maxAppsGo_le_elem (state : Pop) {l : List InputSpec} {i : InputSpec}
    (hi : i ∈ l) :
    ∀ acc, maxAppsGo state l acc ≤ (Pop.getD state i.entity).toNat / i.count := by
  induction l with
  | nil => cases hi
  | cons j rest ih =>
    intro acc
    rw [maxAppsGo]
    split
    · exact Nat.zero_le _
    · rcases List.mem_cons.mp hi with h | h
      · subst h
        exact le_trans (maxAppsGo_le_acc state rest _) (minOpt_le_right _ _)
      · exact ih h _

theorem maxAppsGo_zero_of_unsat (state : Pop) {l : List InputSpec}
    (h : ∃ i ∈ l, Pop.getD state i.entity < (i.count : Int)) :
    ∀ acc, maxAppsGo state l acc = 0 := by
  induction l with
  | nil => simp at h
  | cons j rest ih =>
    intro acc
    rw [maxAppsGo]
    split
    · rfl
    · next hj =>
      rcases h with ⟨i, hi, hlt⟩
      rcases List.mem_cons.mp hi with h | h
      · subst h; exact absurd hlt hj
      · exact ih ⟨i, h, hlt⟩ _

theorem foldl_min_zero (l : List Nat) : l.foldl min 0 = 0 := by
  induction l with
  | nil => rfl
  | cons x xs ih => rw [List.foldl_cons, Nat.zero_min, ih]

theorem maxAppsGo_eq_foldl (state : Pop) {l : List InputSpec}
    (hcnt : ∀ i ∈ l, 1 ≤ i.count) :
    ∀ m : Nat, maxAppsGo state l (some m)
      = (l.map fun i => (Pop.getD state i.entity).toNat / i.count).foldl min m := by
  induction l with
  | nil => intro m; rfl
  | cons i rest ih =>
    intro m
    have hrest : ∀ j ∈ rest, 1 ≤ j.count := fun j hj => hcnt j (List.mem_cons_of_mem _ hj)
    rw [maxAppsGo]
    split
    · next hlt =>
      have hi : 1 ≤ i.count := hcnt i (List.mem_cons_self i rest)
      have hdiv : (Pop.getD state i.entity).toNat / i.count = 0 := by
        apply Nat.div_eq_of_lt
        omega
      rw [List.map_cons, List.foldl_cons, hdiv, Nat.min_zero, foldl_min_zero]
    · rw [ih hrest, List.map_cons, List.foldl_cons]
      rfl

theorem get_max_eq_min (rule : Rule) (state : Pop)
    (hne : rule.inputs ≠ []) (hcnt : ∀ i ∈ rule.inputs, 1 ≤ i.count) :
    get_max_applications_from_state rule state
      = ((rule.inputs.map fun i => (Pop.getD state i.entity).toNat / i.count).min?).getD 0 := by
  unfold get_max_applications_from_state
  cases hl : rule.inputs with
  | nil => exact absurd hl hne
  | cons i rest =>
    rw [hl] at hcnt
    have hrest : ∀ j ∈ rest, 1 ≤ j.count := fun j hj => hcnt j (List.mem_cons_of_mem _ hj)
    have hgetd : (((i :: rest).map fun j => (Pop.getD state j.entity).toNat / j.count).min?).getD 0
        = (rest.map fun j => (Pop.getD state j.entity).toNat / j.count).foldl min
            ((Pop.getD state i.entity).toNat / i.count) := rfl
    rw [hgetd, maxAppsGo]
    split
    · next hlt =>
      have hi : 1 ≤ i.count := hcnt i (List.mem_cons_self i rest)
      have hdiv : (Pop.getD state i.entity).toNat / i.count = 0 := by
        apply Nat.div_eq_of_lt
        omega
      rw [hdiv, foldl_min_zero]
    · rw [maxAppsGo_eq_foldl state hrest]
      rfl

/-! ### Fold and grouping lemmas -/

theorem pos_foldl_subDel (g : List (String × Int)) :
    ∀ s : Pop, (∀ p ∈ s, 0 < p.2) →
      ∀ p ∈ g.foldl (fun acc q => Pop.subDel acc q.1 q.2) s, 0 < p.2 := by
  induction g with
  | nil => intro s hs; exact hs
  | cons q rest ih =>
    intro s hs
    rw [List.foldl_cons]
    exact ih _ (Pop.pos_subDel hs q.1 q.2)

theorem pos_foldl_addIns (g : List (String × Int)) :
    ∀ s : Pop, (∀ p ∈ g, 0 < p.2) → (∀ p ∈ s, 0 < p.2) →
      ∀ p ∈ g.foldl (fun acc q => Pop.addIns acc q.1 q.2) s, 0 < p.2 := by
  induction g with
  | nil => intro s _ hs; exact hs
  | cons q rest ih =>
    intro s hg hs
    rw [List.foldl_cons]
    exact ih _ (fun p hp => hg p (List.mem_cons_of_mem _ hp))
      (Pop.pos_addIns hs (hg q (List.mem_cons_self q rest)))

theorem pos_consume_working {w : Pop} (hs : ∀ p ∈ w, 0 < p.2) (chs : List Change) :
    ∀ p ∈ consume_working w chs, 0 < p.2 := by
  unfold consume_working
  induction chs generalizing w with
  | nil => exact hs
  | cons ch rest ih =>
    rw [List.foldl_cons]
    split
    · exact ih (Pop.pos_subDel hs ch.entity (ch.count : Int))
    · exact ih hs

theorem pos_degrade_working {w : Pop} (hs : ∀ p ∈ w, 0 < p.2) (chs : List Change) :
    ∀ p ∈ degrade_working w chs, 0 < p.2 := by
  unfold degrade_working
  induction chs generalizing w with
  | nil => exact hs
  | cons ch rest ih =>
    rw [List.foldl_cons]
    split
    · exact ih (Pop.pos_subDel hs ch.entity (ch.count : Int))
    · exact ih hs

theorem groupTotals_aux_nonneg (chs : List Change) (t : ChangeType) :
    ∀ acc : Pop, (∀ p ∈ acc, 0 ≤ p.2) →
      ∀ p ∈ chs.foldl
        (fun acc ch => if ch.type = t then Pop.addIns acc ch.entity (ch.count : Int) else acc) acc,
        0 ≤ p.2 := by
  induction chs with
  | nil => intro acc hacc; exact hacc
  | cons ch rest ih =>
    intro acc hacc
    rw [List.foldl_cons]
    split
    · exact ih _ (Pop.nonneg_addIns hacc (Int.ofNat_nonneg ch.count))
    · exact ih _ hacc

theorem groupTotals_nonneg (chs : List Change) (t : ChangeType) :
    ∀ p ∈ groupTotals chs t, 0 ≤ p.2 :=
  groupTotals_aux_nonneg chs t [] (by intro p hp; cases hp)

theorem groupTotals_aux_pos {chs : List Change} {t : ChangeType}
    (h : ∀ ch ∈ chs, ch.type = t → 1 ≤ ch.count) :
    ∀ acc : Pop, (∀ p ∈ acc, 0 < p.2) →
      ∀ p ∈ chs.foldl
        (fun acc ch => if ch.type = t then Pop.addIns acc ch.entity (ch.count : Int) else acc) acc,
        0 < p.2 := by
  induction chs with
  | nil => intro acc hacc; exact hacc
  | cons ch rest ih =>
    intro acc hacc
    rw [List.foldl_cons]
    have hrest : ∀ c ∈ rest, c.type = t → 1 ≤ c.count :=
      fun c hc => h c (List.mem_cons_of_mem _ hc)
    split
    · next hty =>
      have hcnt : 1 ≤ ch.count := h ch (List.mem_cons_self ch rest) hty
      exact ih hrest _ (Pop.pos_addIns hacc (by exact_mod_cast hcnt))
    · exact ih hrest _ hacc

theorem groupTotals_pos {chs : List Change} {t : ChangeType}
    (h : ∀ ch ∈ chs, ch.type = t → 1 ≤ ch.count) :
    ∀ p ∈ groupTotals chs t, 0 < p.2 :=
  groupTotals_aux_pos h [] (by intro p hp; cases hp)

theorem apply_all_changes_pos {entities : Pop} {chs : List Change}
    (hs : ∀ p ∈ entities, 0 < p.2)
    (hprod : ∀ ch ∈ chs, ch.type = ChangeType.produced → 1 ≤ ch.count) :
    ∀ p ∈ apply_all_changes entities chs, 0 < p.2 := by
  unfold apply_all_changes
  exact pos_foldl_addIns _ _ (groupTotals_pos hprod)
    (pos_foldl_subDel _ _ (pos_foldl_subDel _ _ hs))

/-! ### Shape of the records emitted by a rule application -/

theorem apply_rule_changes_shape (rule : Rule) (state : Pop) (r : Nat → ℚ) (k : Nat) :
    (apply_rule_to_state rule state r k).1 = [] ∨
    (0 < actual_applications rule (get_max_applications_from_state rule state) r k ∧
      (apply_rule_to_state rule state r k).1
        = (rule.inputs.filter fun i => i.consumed).map
            (fun i => ⟨ChangeType.consumed, i.entity,
              actual_applications rule (get_max_applications_from_state rule state) r k * i.count,
              rule.name⟩)
          ++ rule.outputs.map fun o => ⟨ChangeType.produced, o.entity,
              actual_applications rule (get_max_applications_from_state rule state) r k * o.count,
              rule.name⟩) := by
  unfold apply_rule_to_state
  dsimp only
  split
  · exact Or.inl rfl
  · split
    · exact Or.inl rfl
    · next ha => exact Or.inr ⟨Nat.pos_of_ne_zero ha, rfl⟩

theorem apply_rule_produced_pos {rule : Rule} (state : Pop) (r : Nat → ℚ) (k : Nat)
    (hout : ∀ o ∈ rule.outputs, 1 ≤ o.count) :
    ∀ ch ∈ (apply_rule_to_state rule state r k).1,
      ch.type = ChangeType.produced → 1 ≤ ch.count := by
  intro ch hch hty
  rcases apply_rule_changes_shape rule state r k with h | ⟨ha, h⟩
  · rw [h] at hch; cases hch
  · rw [h] at hch
    rcases List.mem_append.mp hch with hc | hc
    · rcases List.mem_map.mp hc with ⟨i, hi, hrec⟩
      rw [← hrec] at hty
      cases hty
    · rcases List.mem_map.mp hc with ⟨o, ho, hrec⟩
      rw [← hrec]
      exact Nat.one_le_iff_ne_zero.mpr
        (Nat.mul_ne_zero (Nat.pos_iff_ne_zero.mp ha)
          (Nat.pos_iff_ne_zero.mp (hout o ho)))

theorem apply_rule_consumed_entity {rule : Rule} (state : Pop) (r : Nat → ℚ) (k : Nat) :
    ∀ ch ∈ (apply_rule_to_state rule state r k).1,
      ch.type = ChangeType.consumed →
        ∃ i ∈ rule.inputs, i.consumed = true ∧ ch.entity = i.entity := by
  intro ch hch hty
  rcases apply_rule_changes_shape rule state r k with h | ⟨ha, h⟩
  · rw [h] at hch; cases hch
  · rw [h] at hch
    rcases List.mem_append.mp hch with hc | hc
    · rcases List.mem_map.mp hc with ⟨i, hi, hrec⟩
      have hmem := List.mem_filter.mp hi
      exact ⟨i, hmem.1, by simpa using hmem.2, by rw [← hrec]⟩
    · rcases List.mem_map.mp hc with ⟨o, ho, hrec⟩
      rw [← hrec] at hty
      cases hty

/-! ### Consumption bookkeeping -/

theorem actual_le_max (rule : Rule) (m : Nat) (r : Nat → ℚ) (k : Nat) :
    actual_applications rule m r k ≤ m := by
  unfold actual_applications
  split
  · exact countTrials_le r k m rule.probability
  · split
    · exact countTrials_le r k m rule.probability
    · exact Nat.zero_le m

theorem consumed_amount_le (rule : Rule) (w : Pop) {i : InputSpec} (hi : i ∈ rule.inputs)
    (hw : 0 ≤ Pop.getD w i.entity) {a : Nat}
    (ha : a ≤ get_max_applications_from_state rule w) :
    (↑(a * i.count) : Int) ≤ Pop.getD w i.entity := by
  have h1 : get_max_applications_from_state rule w ≤ (Pop.getD w i.entity).toNat / i.count :=
    maxAppsGo_le_elem w hi none
  have h2 : a * i.count ≤ ((Pop.getD w i.entity).toNat / i.count) * i.count :=
    Nat.mul_le_mul_right _ (le_trans ha h1)
  have h3 : ((Pop.getD w i.entity).toNat / i.count) * i.count ≤ (Pop.getD w i.entity).toNat :=
    Nat.div_mul_le_self _ _
  have h4 : a * i.count ≤ (Pop.getD w i.entity).toNat := le_trans h2 h3
  calc (↑(a * i.count) : Int) ≤ ((Pop.getD w i.entity).toNat : Int) := by exact_mod_cast h4
  _ = Pop.getD w i.entity := Int.toNat_of_nonneg hw

theorem consume_working_append (w : Pop) (l1 l2 : List Change) :
    consume_working w (l1 ++ l2) = consume_working (consume_working w l1) l2 := by
  unfold consume_working
  exact List.foldl_append _ _ _ _

theorem consume_working_no_consumed {l : List Change}
    (h : ∀ ch ∈ l, ch.type ≠ ChangeType.consumed) (w : Pop) :
    consume_working w l = w := by
  unfold consume_working
  induction l generalizing w with
  | nil => rfl
  | cons ch rest ih =>
    rw [List.foldl_cons, if_neg (h ch (List.mem_cons_self ch rest))]
    exact ih (fun c hc => h c (List.mem_cons_of_mem _ hc)) w

theorem consume_fold_core {l : List Change} :
    ∀ w : Pop,
      (∀ ch ∈ l, ch.type = ChangeType.consumed) →
      ((l.map fun ch => ch.entity).Nodup) →
      (∀ ch ∈ l, (ch.count : Int) ≤ Pop.getD w ch.entity) →
      ∀ e, Pop.getD (consume_working w l) e
        = Pop.getD w e - (consumedCount l e : Int) := by
  induction l with
  | nil => intro w _ _ _ e; simp [consume_working, consumedCount]
  | cons ch rest ih =>
    intro w hty hnd hle e
    have hc : ch.type = ChangeType.consumed := hty ch (List.mem_cons_self ch rest)
    have hstep : consume_working w (ch :: rest)
        = consume_working (Pop.subDel w ch.entity (ch.count : Int)) rest := by
      unfold consume_working
      rw [List.foldl_cons, if_pos hc]
    have hbound : (ch.count : Int) ≤ Pop.getD w ch.entity :=
      hle ch (List.mem_cons_self ch rest)
    have hndrest : (rest.map fun c => c.entity).Nodup := (List.nodup_cons.mp hnd).2
    have hfresh : ∀ c ∈ rest, c.entity ≠ ch.entity := by
      intro c hcr hcontra
      exact (List.nodup_cons.mp hnd).1 (List.mem_map.mpr ⟨c, hcr, hcontra⟩)
    have hle1 : ∀ c ∈ rest, (c.count : Int) ≤ Pop.getD (Pop.subDel w ch.entity (ch.count : Int)) c.entity := by
      intro c hcr
      rw [Pop.getD_subDel_ne w (hfresh c hcr) _]
      exact hle c (List.mem_cons_of_mem _ hcr)
    have hdel : Pop.getD (Pop.subDel w ch.entity (ch.count : Int)) ch.entity
        = Pop.getD w ch.entity - (ch.count : Int) := by
      rw [Pop.getD_subDel_self w ch.entity (Int.ofNat_nonneg ch.count)]
      omega
    rw [hstep, ih _ (fun c hcr => hty c (List.mem_cons_of_mem _ hcr)) hndrest hle1 e]
    by_cases he : ch.entity = e
    · subst he
      have hrest0 : consumedCount rest ch.entity = 0 :=
        consumedCount_eq_zero fun c hcr hcc => hfresh c hcr hcc.2
      rw [hdel, consumedCount, if_pos ⟨hc, rfl⟩, hrest0]
      push_cast
      ring
    · rw [Pop.getD_subDel_ne w (fun hh => he hh.symm) _, consumedCount,
        if_neg fun hcc => he hcc.2]
      push_cast
      ring

theorem rule_spend (rule : Rule) (w : Pop) (r : Nat → ℚ) (k : Nat)
    (hpos : ∀ p ∈ w, 0 < p.2)
    (hdist : ((rule.inputs.filter fun i => i.consumed).map fun i => i.entity).Nodup) :
    ∀ e, Pop.getD (consume_working w (apply_rule_to_state rule w r k).1) e
        = Pop.getD w e - (consumedCount (apply_rule_to_state rule w r k).1 e : Int) := by
  intro e
  rcases apply_rule_changes_shape rule w r k with h | ⟨ha, h⟩
  · rw [h]
    simp [consume_working, consumedCount]
  · rw [h]
    set a := actual_applications rule (get_max_applications_from_state rule w) r k with hadef
    set cons := (rule.inputs.filter fun i => i.consumed).map
      (fun i => (⟨ChangeType.consumed, i.entity, a * i.count, rule.name⟩ : Change)) with hconsdef
    set prod := rule.outputs.map
      (fun o => (⟨ChangeType.produced, o.entity, a * o.count, rule.name⟩ : Change)) with hproddef
    have hprodty : ∀ ch ∈ prod, ch.type ≠ ChangeType.consumed := by
      intro ch hch
      rcases List.mem_map.mp hch with ⟨o, ho, hrec⟩
      rw [← hrec]
      intro hcc
      cases hcc
    have hconsty : ∀ ch ∈ cons, ch.type = ChangeType.consumed := by
      intro ch hch
      rcases List.mem_map.mp hch with ⟨i, hi, hrec⟩
      rw [← hrec]
    have hconsnd : (cons.map fun ch => ch.entity).Nodup := by
      rw [hconsdef, List.map_map]
      exact hdist
    have hconsle : ∀ ch ∈ cons, (ch.count : Int) ≤ Pop.getD w ch.entity := by
      intro ch hch
      rcases List.mem_map.mp hch with ⟨i, hi, hrec⟩
      rw [← hrec]
      exact consumed_amount_le rule w (List.mem_filter.mp hi).1
        (Pop.getD_nonneg (fun p hp => le_of_lt (hpos p hp)) _)
        (actual_le_max rule _ r k)
    have hprodcc : consumedCount prod e = 0 :=
      consumedCount_eq_zero fun c hc hcc => hprodty c hc hcc.1
    rw [consume_working_append, consume_working_no_consumed hprodty,
      consumedCount_append, hprodcc,
      consume_fold_core w hconsty hconsnd hconsle e]
    push_cast
    ring

theorem run_rules_spend : ∀ (rules : List Rule) (w : Pop) (r : Nat → ℚ) (k : Nat),
    (∀ p ∈ w, 0 < p.2) →
    (∀ ru ∈ rules, ((ru.inputs.filter fun i => i.consumed).map fun i => i.entity).Nodup) →
    (∀ e, Pop.getD (run_rules rules w r k).working e
        = Pop.getD w e - (consumedCount (run_rules rules w r k).changes e : Int))
    ∧ (∀ p ∈ (run_rules rules w r k).working, 0 < p.2) := by
  intro rules
  induction rules with
  | nil =>
    intro w r k hpos _
    exact ⟨fun e => by simp [run_rules, consumedCount], hpos⟩
  | cons rule rest ih =>
    intro w r k hpos hdist
    have hpos1 : ∀ p ∈ consume_working w (apply_rule_to_state rule w r k).1, 0 < p.2 :=
      pos_consume_working hpos _
    have hrest : ∀ ru ∈ rest, ((ru.inputs.filter fun i => i.consumed).map fun i => i.entity).Nodup :=
      fun ru hru => hdist ru (List.mem_cons_of_mem _ hru)
    rcases ih (consume_working w (apply_rule_to_state rule w r k).1) r
      (apply_rule_to_state rule w r k).2 hpos1 hrest with ⟨ihEq, ihPos⟩
    constructor
    · intro e
      have hrule := rule_spend rule w r k hpos (hdist rule (List.mem_cons_self rule rest))
      simp only [run_rules]
      rw [consumedCount_append, ihEq e, hrule e]
      push_cast
      ring
    · intro p hp
      simp only [run_rules] at hp
      exact ihPos p hp

theorem run_rules_spend_le (rules : List Rule) (w : Pop) (r : Nat → ℚ) (k : Nat)
    (hpos : ∀ p ∈ w, 0 < p.2)
    (hdist : ∀ ru ∈ rules, ((ru.inputs.filter fun i => i.consumed).map fun i => i.entity).Nodup)
    (e : String) :
    (consumedCount (run_rules rules w r k).changes e : Int) ≤ Pop.getD w e := by
  rcases run_rules_spend rules w r k hpos hdist with ⟨hEq, hPos⟩
  have h0 : 0 ≤ Pop.getD (run_rules rules w r k).working e :=
    Pop.getD_nonneg (fun p hp => le_of_lt (hPos p hp)) e
  have := hEq e
  omega

/-! ### Interferon accumulation and record typing -/

theorem interferon_effects_of_nonpos {rule : Rule} (h : rule.interferon_amount ≤ 0)
    (chs : List Change) : process_rule_interferon_effects rule chs = 0 := by
  unfold process_rule_interferon_effects
  rw [if_pos h]

theorem run_rules_ifn_nonneg : ∀ (rules : List Rule) (w : Pop) (r : Nat → ℚ) (k : Nat),
    0 ≤ (run_rules rules w r k).ifn := by
  intro rules
  induction rules with
  | nil => intro w r k; exact le_refl 0
  | cons rule rest ih =>
    intro w r k
    simp only [run_rules]
    split
    · next hv => exact add_nonneg (le_of_lt hv) (ih _ _ _)
    · exact ih _ _ _

theorem run_rules_ifn_zero {rules : List Rule}
    (h : ∀ ru ∈ rules, ru.interferon_amount = 0) :
    ∀ (w : Pop) (r : Nat → ℚ) (k : Nat), (run_rules rules w r k).ifn = 0 := by
  induction rules with
  | nil => intro w r k; rfl
  | cons rule rest ih =>
    intro w r k
    have hz : process_rule_interferon_effects rule (apply_rule_to_state rule w r k).1 = 0 :=
      interferon_effects_of_nonpos
        (le_of_eq (h rule (List.mem_cons_self rule rest))) _
    simp only [run_rules, hz]
    rw [if_neg (lt_irrefl 0), ih fun ru hru => h ru (List.mem_cons_of_mem _ hru)]

theorem apply_degradation_go_types (cfg : SimCfg) (lvl : ℚ) (r : Nat → ℚ) :
    ∀ (s : List (String × Int)) (k : Nat),
      ∀ ch ∈ (apply_degradation_go cfg lvl r s k).1, ch.type = ChangeType.degraded := by
  intro s
  induction s with
  | nil => intro k ch hch; cases hch
  | cons p rest ih =>
    intro k ch hch
    rw [apply_degradation_go] at hch
    split at hch
    · exact ih k ch hch
    · split at hch
      · exact ih k ch hch
      · dsimp only at hch
        split at hch
        · rcases List.mem_cons.mp hch with h | h
          · rw [h]
          · exact ih _ ch h
        · exact ih _ ch hch

theorem run_rules_produced_pos {rules : List Rule}
    (hout : ∀ ru ∈ rules, ∀ o ∈ ru.outputs, 1 ≤ o.count) :
    ∀ (w : Pop) (r : Nat → ℚ) (k : Nat),
      ∀ ch ∈ (run_rules rules w r k).changes,
        ch.type = ChangeType.produced → 1 ≤ ch.count := by
  induction rules with
  | nil => intro w r k ch hch; cases hch
  | cons rule rest ih =>
    intro w r k ch hch hty
    simp only [run_rules] at hch
    rcases List.mem_append.mp hch with h | h
    · exact apply_rule_produced_pos w r k (hout rule (List.mem_cons_self rule rest)) ch h hty
    · exact ih (fun ru hru => hout ru (List.mem_cons_of_mem _ hru)) _ _ _ ch h hty

/-! ### Minimum-list and record-count lemmas -/

theorem le_foldl_min {a : Nat} : ∀ (l : List Nat) (b : Nat), a ≤ b → (∀ x ∈ l, a ≤ x) →
    a ≤ l.foldl min b := by
  intro l
  induction l with
  | nil => intro b hb _; exact hb
  | cons x xs ih =>
    intro b hb h
    rw [List.foldl_cons]
    exact ih (min b x) (le_min hb (h x (List.mem_cons_self x xs)))
      fun y hy => h y (List.mem_cons_of_mem _ hy)

theorem le_minList {l : List Nat} (hne : l ≠ []) {a : Nat} (h : ∀ x ∈ l, a ≤ x) :
    a ≤ minList l := by
  cases l with
  | nil => exact absurd rfl hne
  | cons x xs =>
    exact le_foldl_min xs x (h x (List.mem_cons_self x xs))
      fun y hy => h y (List.mem_cons_of_mem _ hy)

theorem minList_map_congr {α : Type} {l : List α} {f g : α → Nat}
    (h : ∀ x ∈ l, f x = g x) : minList (l.map f) = minList (l.map g) := by
  have : l.map f = l.map g := by
    induction l with
    | nil => rfl
    | cons x xs ih =>
      rw [List.map_cons, List.map_cons, h x (List.mem_cons_self x xs),
        ih fun y hy => h y (List.mem_cons_of_mem _ hy)]
  rw [this]

theorem consumedCount_ge_mem {l : List Change} {ch : Change} (hch : ch ∈ l)
    (hty : ch.type = ChangeType.consumed) :
    ch.count ≤ consumedCount l ch.entity := by
  induction l with
  | nil => cases hch
  | cons c rest ih =>
    rcases List.mem_cons.mp hch with h | h
    · subst h
      rw [consumedCount, if_pos ⟨hty, rfl⟩]
      exact Nat.le_add_right _ _
    · rw [consumedCount]
      exact le_trans (ih h) (Nat.le_add_left _ _)

/-! ### Full-degradation and grouping shapes -/

theorem apply_degradation_full {cfg : SimCfg} {lvl : ℚ} {r : Nat → ℚ}
    (hr : ∀ i, r i < 1) :
    ∀ (s : List (String × Int)) (k : Nat),
      (∀ p ∈ s, 0 < p.2) →
      (∀ p ∈ s, rateOf cfg.degradation_rates p.1 = 1) →
      (apply_degradation_go cfg lvl r s k).1
        = s.map fun p => ⟨ChangeType.degraded, p.1, p.2.toNat, "Natural degradation"⟩ := by
  intro s
  induction s with
  | nil => intro k _ _; rfl
  | cons p rest ih =>
    intro k hpos hrate
    have hp : 0 < p.2 := hpos p (List.mem_cons_self p rest)
    have hb : 0 ≤ calculate_interferon_degradation_bonus cfg.db lvl p.1 :=
      interferon_bonus_nonneg cfg.db lvl p.1
    have hrone : final_degradation_rate cfg.degradation_rates cfg.db lvl p.1 = 1 := by
      unfold final_degradation_rate
      rw [hrate p (List.mem_cons_self p rest), one_mul]
      exact min_eq_left (by linarith)
    have hd : countTrials r k p.2.toNat
        (final_degradation_rate cfg.degradation_rates cfg.db lvl p.1) = p.2.toNat := by
      rw [hrone]
      exact countTrials_eq_of_all r k p.2.toNat fun i _ => hr (k + i)
    rw [apply_degradation_go, if_neg (by omega), if_neg (by rw [hrone]; norm_num)]
    dsimp only
    rw [hd, if_pos (by omega), List.map_cons]
    rw [ih (k + p.2.toNat) (fun q hq => hpos q (List.mem_cons_of_mem _ hq))
      (fun q hq => hrate q (List.mem_cons_of_mem _ hq))]

theorem Pop.memB_append (s u : Pop) (e : String) :
    Pop.memB (s ++ u) e = (Pop.memB s e || Pop.memB u e) := by
  unfold Pop.memB
  exact List.any_append

theorem Pop.memB_singleton (q : String × Int) (e : String) :
    Pop.memB [q] e = (q.1 == e) := by
  simp [Pop.memB]

theorem groupTotals_aux_shape {t : ChangeType} :
    ∀ (chs : List Change) (acc : Pop),
      (∀ ch ∈ chs, ch.type = t) →
      ((chs.map fun ch => ch.entity).Nodup) →
      (∀ ch ∈ chs, Pop.memB acc ch.entity = false) →
      chs.foldl
        (fun acc ch => if ch.type = t then Pop.addIns acc ch.entity (ch.count : Int) else acc) acc
        = acc ++ chs.map fun ch => (ch.entity, (ch.count : Int)) := by
  intro chs
  induction chs with
  | nil => intro acc _ _ _; simp
  | cons ch rest ih =>
    intro acc hty hnd hfree
    rw [List.foldl_cons, if_pos (hty ch (List.mem_cons_self ch rest))]
    have hmem : Pop.memB acc ch.entity = false := hfree ch (List.mem_cons_self ch rest)
    have hstep : Pop.addIns acc ch.entity (ch.count : Int) = acc ++ [(ch.entity, (ch.count : Int))] := by
      unfold Pop.addIns
      rw [hmem]
      simp
    rw [hstep]
    have hndrest : (rest.map fun c => c.entity).Nodup := (List.nodup_cons.mp hnd).2
    have hfresh : ∀ c ∈ rest, c.entity ≠ ch.entity := by
      intro c hcr hcontra
      exact (List.nodup_cons.mp hnd).1 (List.mem_map.mpr ⟨c, hcr, hcontra⟩)
    have hfree1 : ∀ c ∈ rest, Pop.memB (acc ++ [(ch.entity, (ch.count : Int))]) c.entity = false := by
      intro c hcr
      rw [Pop.memB_append, hfree c (List.mem_cons_of_mem _ hcr), Pop.memB_singleton]
      simp only [Bool.false_or]
      exact beq_eq_false_iff_ne.mpr fun hh => hfresh c hcr (by rw [hh])
    rw [ih _ (fun c hcr => hty c (List.mem_cons_of_mem _ hcr)) hndrest hfree1]
    simp

theorem groupTotals_map_shape {chs : List Change} {t : ChangeType}
    (hty : ∀ ch ∈ chs, ch.type = t)
    (hnd : (chs.map fun ch => ch.entity).Nodup) :
    groupTotals chs t = chs.map fun ch => (ch.entity, (ch.count : Int)) := by
  unfold groupTotals
  rw [groupTotals_aux_shape chs [] hty hnd (fun ch _ => rfl)]
  simp

theorem groupTotals_nil_of_no_type {chs : List Change} {t : ChangeType}
    (h : ∀ ch ∈ chs, ch.type ≠ t) :
    groupTotals chs t = [] := by
  unfold groupTotals
  induction chs with
  | nil => rfl
  | cons ch rest ih =>
    rw [List.foldl_cons, if_neg (h ch (List.mem_cons_self ch rest))]
    exact ih fun c hc => h c (List.mem_cons_of_mem _ hc)

theorem foldl_subDel_self : ∀ s : Pop, (s.map Prod.fst).Nodup →
    List.foldl (fun acc q => Pop.subDel acc q.1 q.2) s s = [] := by
  intro s
  induction s with
  | nil => intro _; rfl
  | cons q t ih =>
    intro hnd
    rw [List.foldl_cons]
    have hstep : Pop.subDel (q :: t) q.1 q.2 = t := by
      have hget : Pop.getD (q :: t) q.1 = q.2 := by
        rw [Pop.getD, if_pos rfl]
      unfold Pop.subDel
      rw [hget, if_pos (by omega), Pop.erase, if_pos rfl]
      exact Pop.erase_of_forall_ne fun p hp hcontra =>
        (List.nodup_cons.mp hnd).1 (List.mem_map.mpr ⟨p, hp, hcontra⟩)
    rw [hstep]
    exact ih (List.nodup_cons.mp hnd).2

theorem map_toNat_id {s : Pop} (hpos : ∀ p ∈ s, 0 < p.2) :
    (s.map fun p => (p.1, ((p.2.toNat : Int)))) = s := by
  induction s with
  | nil => rfl
  | cons p rest ih =>
    rw [List.map_cons, ih fun q hq => hpos q (List.mem_cons_of_mem _ hq)]
    have hp : 0 < p.2 := hpos p (List.mem_cons_self p rest)
    have : ((p.2.toNat : Int)) = p.2 := by omega
    rw [this]

/-! ### Remaining helpers -/

theorem pyRound_zero (d : Nat) : pyRound 0 d = 0 := by
  unfold pyRound
  rw [zero_mul]
  have h0 : roundHalfEven ((0 : Int) : ℚ) = 0 := roundHalfEven_intCast 0
  simp only [Int.cast_zero] at h0
  rw [h0]
  simp

theorem pyRound_two_mul_int {x : ℚ} (h : pyRound x 2 = x) :
    x * 100 = ((roundHalfEven (x * 100) : Int) : ℚ) := by
  have h100 : ((10 ^ 2 : ℕ) : ℚ) = 100 := by norm_num
  unfold pyRound at h
  rw [h100] at h
  have h2 : ((roundHalfEven (x * 100) : Int) : ℚ) = x * 100 := by
    field_simp at h
    linarith
  linarith

theorem map_congr_mem {α β : Type} {l : List α} {f g : α → β}
    (h : ∀ x ∈ l, f x = g x) : l.map f = l.map g := by
  induction l with
  | nil => rfl
  | cons x xs ih =>
    rw [List.map_cons, List.map_cons, h x (List.mem_cons_self x xs),
      ih fun y hy => h y (List.mem_cons_of_mem _ hy)]

/-! ### Claim theorems -/

/-- C10: a rule whose `rule_type` is neither "per_entity" nor "per_pair" yields
0 actual applications and emits no change records, for every state, probability
and random stream. -/
theorem unknown_rule_type_no_applications (rule : Rule) (state : Pop) (r : Nat → ℚ) (k : Nat)
    (h1 : rule.rule_type ≠ "per_entity") (h2 : rule.rule_type ≠ "per_pair") :
    apply_rule_to_state rule state r k = ([], k) := by
  have ha : actual_applications rule (get_max_applications_from_state rule state) r k = 0 := by
    unfold actual_applications
    rw [if_neg h1, if_neg h2]
  have hd : rule_draws rule (get_max_applications_from_state rule state) = 0 := by
    unfold rule_draws
    rw [if_neg (by tauto)]
  unfold apply_rule_to_state
  dsimp only
  split
  · rfl
  · simp [ha, hd]

/-- C10 witness: a concrete rule with `rule_type` "weird" applied to a
population wholly satisfying its input. -/
theorem unknown_rule_type_no_applications_witness :
    (("weird" : String) ≠ "per_entity" ∧ ("weird" : String) ≠ "per_pair")
    ∧ apply_rule_to_state ⟨"U", [⟨"x", 1, true⟩], [⟨"y", 1⟩], 1, "weird", 0⟩ [("x", 5)] rZero 0
        = ([], 0) :=
  ⟨⟨by decide, by decide⟩,
    unknown_rule_type_no_applications ⟨"U", [⟨"x", 1, true⟩], [⟨"y", 1⟩], 1, "weird", 0⟩
      [("x", 5)] rZero 0 (by decide) (by decide)⟩

/-- C9: with no metadata manager, or no metadata record for the entity, the
interferon degradation bonus is 0 and the effective rate equals the base rate
(which lies in [0,1] for well-formed data), for every feedback level. -/
theorem no_metadata_no_interferon_bonus (drates : List (String × ℚ))
    (db : Option (String → Option EntityMeta)) (lvl : ℚ) (e : String)
    (h : db = none ∨ ∃ f, db = some f ∧ f e = none)
    (hbase : rateOf drates e ≤ 1) :
    calculate_interferon_degradation_bonus db lvl e = 0
    ∧ final_degradation_rate drates db lvl e = rateOf drates e := by
  have hb : calculate_interferon_degradation_bonus db lvl e = 0 := by
    unfold calculate_interferon_degradation_bonus
    rcases h with h | ⟨f, hdb, hfe⟩
    · subst h
      split
      · rfl
      · rfl
    · subst hdb
      split
      · rfl
      · dsimp only
        rw [hfe]
  refine ⟨hb, ?_⟩
  unfold final_degradation_rate
  rw [hb, add_zero, mul_one]
  exact min_eq_right hbase

/-- C9 witness: entity "x" with no metadata manager at feedback level 40. -/
theorem no_metadata_no_interferon_bonus_witness :
    (((none : Option (String → Option EntityMeta)) = none
        ∨ ∃ f, (none : Option (String → Option EntityMeta)) = some f ∧ f "x" = none)
      ∧ rateOf [] "x" ≤ 1)
    ∧ calculate_interferon_degradation_bonus none 40 "x" = 0
    ∧ final_degradation_rate [] none 40 "x" = rateOf [] "x" :=
  ⟨⟨Or.inl rfl, by norm_num [rateOf]⟩,
    no_metadata_no_interferon_bonus [] none 40 "x" (Or.inl rfl) (by norm_num [rateOf])⟩

/-- C5: for an entity with a metadata record, the effective degradation rate
is `min(1, base * (1 + round4(level * classMult)))` with class multipliers
0.0125 / 0.0075 / 0.005 for (case-insensitive) RNA / protein / DNA and 0
otherwise; concretely, class RNA, base 0.1, level 40 gives rate 0.15. -/
theorem effective_degradation_rate_formula (drates : List (String × ℚ))
    (f : String → Option EntityMeta) (lvl : ℚ) (e : String) (meta : EntityMeta)
    (hfe : f e = some meta) (hlvl : 0 ≤ lvl) :
    calculate_interferon_degradation_bonus (some f) lvl e
      = pyRound (lvl * classMult meta.entity_class) 4
    ∧ final_degradation_rate drates (some f) lvl e
      = min 1 (rateOf drates e * (1 + pyRound (lvl * classMult meta.entity_class) 4))
    ∧ classMult "RNA" = 125/10000
    ∧ classMult "protein" = 75/10000
    ∧ classMult "DNA" = 5/1000
    ∧ (∀ cls : String, pyLower cls ≠ "rna" → pyLower cls ≠ "protein" →
        pyLower cls ≠ "dna" → classMult cls = 0)
    ∧ final_degradation_rate [("v", 1/10)] (some dbRNA) 40 "v" = 3/20 := by
  have hb : calculate_interferon_degradation_bonus (some f) lvl e
      = pyRound (lvl * classMult meta.entity_class) 4 := by
    unfold calculate_interferon_degradation_bonus
    split
    · next hle =>
      have hlvl0 : lvl = 0 := le_antisymm hle hlvl
      rw [hlvl0, zero_mul, pyRound_zero]
    · dsimp only
      rw [hfe]
  have hrna : pyLower "RNA" = "rna" := by decide
  have hpro : pyLower "protein" = "protein" := by decide
  have hdna : pyLower "DNA" = "dna" := by decide
  have hpne1 : pyLower "protein" ≠ "rna" := by decide
  have hcRNA : classMult "RNA" = 125/10000 := by
    unfold classMult
    rw [if_pos hrna]
  have hcPro : classMult "protein" = 75/10000 := by
    unfold classMult
    rw [if_neg (by rw [hpro]; decide), if_pos hpro]
  have hcDNA : classMult "DNA" = 5/1000 := by
    unfold classMult
    rw [if_neg (by rw [hdna]; decide), if_neg (by rw [hdna]; decide), if_pos hdna]
  have hother : ∀ cls : String, pyLower cls ≠ "rna" → pyLower cls ≠ "protein" →
      pyLower cls ≠ "dna" → classMult cls = 0 := by
    intro cls hc1 hc2 hc3
    unfold classMult
    rw [if_neg hc1, if_neg hc2, if_neg hc3]
  have hconc : final_degradation_rate [("v", 1/10)] (some dbRNA) 40 "v" = 3/20 := by
    have hb40 : calculate_interferon_degradation_bonus (some dbRNA) 40 "v" = 1/2 := by
      unfold calculate_interferon_degradation_bonus
      rw [if_neg (by norm_num)]
      show pyRound (40 * classMult "RNA") 4 = 1/2
      rw [hcRNA]
      have harg : (40 : ℚ) * (125/10000) * ((10 ^ 4 : ℕ) : ℚ) = ((5000 : Int) : ℚ) := by
        norm_num
      unfold pyRound
      rw [harg, roundHalfEven_intCast]
      norm_num
    unfold final_degradation_rate
    rw [hb40]
    norm_num [rateOf]
  exact ⟨hb, by unfold final_degradation_rate; rw [hb], hcRNA, hcPro, hcDNA, hother, hconc⟩

/-- C5 witness: the concrete RNA scenario (base 0.1, level 40, rate 0.15). -/
theorem effective_degradation_rate_formula_witness :
    (dbRNA "v" = some ⟨"RNA"⟩ ∧ (0 : ℚ) ≤ 40)
    ∧ calculate_interferon_degradation_bonus (some dbRNA) 40 "v"
        = pyRound (40 * classMult "RNA") 4
    ∧ final_degradation_rate [("v", 1/10)] (some dbRNA) 40 "v"
        = min 1 (rateOf [("v", 1/10)] "v" * (1 + pyRound (40 * classMult "RNA") 4)) :=
  ⟨⟨rfl, by decide⟩,
    (effective_degradation_rate_formula [("v", 1/10)] dbRNA 40 "v" ⟨"RNA"⟩ rfl (by decide)).1,
    (effective_degradation_rate_formula [("v", 1/10)] dbRNA 40 "v" ⟨"RNA"⟩ rfl (by decide)).2.1⟩

/-- C1: the maximum application count equals the floor-divide minimum over
all inputs (0 when an input is unsatisfied), the per-slot Bernoulli successes
never exceed it, and a rule with an unsatisfied input emits no change
records. -/
theorem rule_firing_bound (rule : Rule) (state : Pop) (r : Nat → ℚ) (k : Nat)
    (hne : rule.inputs ≠ []) (hcnt : ∀ i ∈ rule.inputs, 1 ≤ i.count) :
    get_max_applications_from_state rule state
      = ((rule.inputs.map fun i => (Pop.getD state i.entity).toNat / i.count).min?).getD 0
    ∧ actual_applications rule (get_max_applications_from_state rule state) r k
        ≤ get_max_applications_from_state rule state
    ∧ ((∃ i ∈ rule.inputs, Pop.getD state i.entity < (i.count : Int)) →
        apply_rule_to_state rule state r k = ([], k)) := by
  refine ⟨get_max_eq_min rule state hne hcnt, actual_le_max rule _ r k, ?_⟩
  intro hunsat
  have h0 : get_max_applications_from_state rule state = 0 :=
    maxAppsGo_zero_of_unsat state hunsat none
  unfold apply_rule_to_state
  dsimp only
  simp [h0]

/-- C1 witness: a rule requiring 2 "x" per application over a population of
five "x" (max 2 applications), and the unsatisfied case via entity "y". -/
theorem rule_firing_bound_witness :
    ((⟨"W", [⟨"x", 2, true⟩], [⟨"y", 3⟩], 1, "per_entity", 2⟩ : Rule).inputs ≠ []
      ∧ ∀ i ∈ (⟨"W", [⟨"x", 2, true⟩], [⟨"y", 3⟩], 1, "per_entity", 2⟩ : Rule).inputs, 1 ≤ i.count)
    ∧ (get_max_applications_from_state ⟨"W", [⟨"x", 2, true⟩], [⟨"y", 3⟩], 1, "per_entity", 2⟩ [("x", 5)]
        = ((([⟨"x", 2, true⟩] : List InputSpec).map
            fun i => (Pop.getD [("x", 5)] i.entity).toNat / i.count).min?).getD 0
      ∧ actual_applications ⟨"W", [⟨"x", 2, true⟩], [⟨"y", 3⟩], 1, "per_entity", 2⟩
          (get_max_applications_from_state ⟨"W", [⟨"x", 2, true⟩], [⟨"y", 3⟩], 1, "per_entity", 2⟩ [("x", 5)]) rZero 0
          ≤ get_max_applications_from_state ⟨"W", [⟨"x", 2, true⟩], [⟨"y", 3⟩], 1, "per_entity", 2⟩ [("x", 5)]
      ∧ ((∃ i ∈ (⟨"W", [⟨"x", 2, true⟩], [⟨"y", 3⟩], 1, "per_entity", 2⟩ : Rule).inputs,
            Pop.getD [("x", 5)] i.entity < (i.count : Int)) →
          apply_rule_to_state ⟨"W", [⟨"x", 2, true⟩], [⟨"y", 3⟩], 1, "per_entity", 2⟩ [("x", 5)] rZero 0
            = ([], 0))) :=
  ⟨⟨by decide, by decide⟩,
    rule_firing_bound ⟨"W", [⟨"x", 2, true⟩], [⟨"y", 3⟩], 1, "per_entity", 2⟩ [("x", 5)]
      rZero 0 (by decide) (by decide)⟩

/-- C3: the feedback scalar stays within [0,100]; each turn it first decays by
1.0 (floored at 0) and only then receives this turn's summed generation
(capped at 100); with all interferon amounts 0 it follows
`max 0 (level - 1)` exactly. -/
theorem feedback_scalar_bounds (cfg : SimCfg) (st : SimState) (r : Nat → ℚ) (k : Nat)
    (h0 : 0 ≤ st.interferon_level) (h1 : st.interferon_level ≤ 100) :
    (0 ≤ (process_turn cfg st r k).state.interferon_level
      ∧ (process_turn cfg st r k).state.interferon_level ≤ 100)
    ∧ (process_turn cfg st r k).state.interferon_level
        = min 100 (max 0 (st.interferon_level - 1) + (transition_pass cfg st r k).ifn)
    ∧ ((∀ ru ∈ cfg.transition_rules, ru.interferon_amount = 0) →
        (process_turn cfg st r k).state.interferon_level = max 0 (st.interferon_level - 1)) := by
  have htotal : 0 ≤ (transition_pass cfg st r k).ifn := run_rules_ifn_nonneg _ _ _ _
  have hlvl : (process_turn cfg st r k).state.interferon_level
      = if 0 < (transition_pass cfg st r k).ifn
        then min 100 (max 0 (st.interferon_level - 1) + (transition_pass cfg st r k).ifn)
        else max 0 (st.interferon_level - 1) := rfl
  have hmle : max 0 (st.interferon_level - 1) ≤ 100 :=
    max_le (by norm_num) (by linarith)
  have heq : (process_turn cfg st r k).state.interferon_level
      = min 100 (max 0 (st.interferon_level - 1) + (transition_pass cfg st r k).ifn) := by
    rw [hlvl]
    split
    · rfl
    · next hns =>
      have hz : (transition_pass cfg st r k).ifn = 0 := le_antisymm (not_lt.mp hns) htotal
      rw [hz, add_zero, min_eq_right hmle]
  refine ⟨⟨?_, ?_⟩, heq, ?_⟩
  · rw [heq]
    exact le_min (by norm_num) (add_nonneg (le_max_left 0 _) htotal)
  · rw [heq]
    exact min_le_left _ _
  · intro hall
    have hz : (transition_pass cfg st r k).ifn = 0 := run_rules_ifn_zero hall _ _ _
    rw [hlvl, hz, if_neg (lt_irrefl 0)]

/-- C3 witness: the witness configuration at feedback level 0. -/
theorem feedback_scalar_bounds_witness :
    ((0 : ℚ) ≤ wSt.interferon_level ∧ wSt.interferon_level ≤ 100)
    ∧ ((0 ≤ (process_turn wCfg wSt rZero 0).state.interferon_level
        ∧ (process_turn wCfg wSt rZero 0).state.interferon_level ≤ 100)
      ∧ (process_turn wCfg wSt rZero 0).state.interferon_level
          = min 100 (max 0 (wSt.interferon_level - 1) + (transition_pass wCfg wSt rZero 0).ifn)
      ∧ ((∀ ru ∈ wCfg.transition_rules, ru.interferon_amount = 0) →
          (process_turn wCfg wSt rZero 0).state.interferon_level
            = max 0 (wSt.interferon_level - 1))) :=
  ⟨⟨by decide, by decide⟩, feedback_scalar_bounds wCfg wSt rZero 0 (by decide) (by decide)⟩

/-- C4: after a turn over a population with positive counts, under a blueprint
whose rules have positive input and output counts, every entity present in
the committed population has a strictly positive count. -/
theorem population_positive_after_turn (cfg : SimCfg) (st : SimState) (r : Nat → ℚ) (k : Nat)
    (hpos : ∀ p ∈ st.entities, 0 < p.2)
    (hin : ∀ ru ∈ cfg.transition_rules, ∀ i ∈ ru.inputs, 1 ≤ i.count)
    (hout : ∀ ru ∈ cfg.transition_rules, ∀ o ∈ ru.outputs, 1 ≤ o.count) :
    ∀ p ∈ (process_turn cfg st r k).state.entities, 0 < p.2 := by
  have hchanges : (process_turn cfg st r k).state.entities
      = apply_all_changes st.entities
          ((apply_degradation cfg st.interferon_level st.entities r k).1
            ++ (transition_pass cfg st r k).changes) := rfl
  rw [hchanges]
  apply apply_all_changes_pos hpos
  intro ch hch hty
  rcases List.mem_append.mp hch with h | h
  · have hd := apply_degradation_go_types cfg st.interferon_level r st.entities k ch h
    rw [hd] at hty
    cases hty
  · exact run_rules_produced_pos hout _ r _ ch h hty

/-- C4 witness: one rule consuming 2 "x" producing 3 "y" over five "x". -/
theorem population_positive_after_turn_witness :
    ((∀ p ∈ wSt.entities, 0 < p.2)
      ∧ (∀ ru ∈ wCfg.transition_rules, ∀ i ∈ ru.inputs, 1 ≤ i.count)
      ∧ (∀ ru ∈ wCfg.transition_rules, ∀ o ∈ ru.outputs, 1 ≤ o.count))
    ∧ ∀ p ∈ (process_turn wCfg wSt rZero 0).state.entities, 0 < p.2 :=
  ⟨⟨by decide, by decide, by decide⟩,
    population_positive_after_turn wCfg wSt rZero 0 (by decide) (by decide) (by decide)⟩

/-- C8: with degradation rate 1 for every populated entity and no transition
rules, one turn empties the population — for every draw stream (the per-slot
trials all succeed at rate 1) and every feedback level. -/
theorem full_degradation_extinction (cfg : SimCfg) (st : SimState) (r : Nat → ℚ) (k : Nat)
    (hrules : cfg.transition_rules = [])
    (hkeys : (st.entities.map Prod.fst).Nodup)
    (hpos : ∀ p ∈ st.entities, 0 < p.2)
    (hrate : ∀ p ∈ st.entities, rateOf cfg.degradation_rates p.1 = 1)
    (hr : ∀ i, r i < 1) :
    (process_turn cfg st r k).state.entities = [] := by
  have hdeg : (apply_degradation cfg st.interferon_level st.entities r k).1
      = st.entities.map fun p => ⟨ChangeType.degraded, p.1, p.2.toNat, "Natural degradation"⟩ :=
    apply_degradation_full hr st.entities k hpos hrate
  have hrun : (transition_pass cfg st r k).changes = [] := by
    unfold transition_pass
    rw [hrules]
    rfl
  have hchanges : (process_turn cfg st r k).state.entities
      = apply_all_changes st.entities
          ((apply_degradation cfg st.interferon_level st.entities r k).1
            ++ (transition_pass cfg st r k).changes) := rfl
  rw [hchanges, hrun, List.append_nil, hdeg]
  have htys : ∀ ch ∈ st.entities.map
      (fun p => (⟨ChangeType.degraded, p.1, p.2.toNat, "Natural degradation"⟩ : Change)),
      ch.type = ChangeType.degraded := by
    intro ch hch
    rcases List.mem_map.mp hch with ⟨p, hp, hrec⟩
    rw [← hrec]
  have hnd : ((st.entities.map
      (fun p => (⟨ChangeType.degraded, p.1, p.2.toNat, "Natural degradation"⟩ : Change))).map
      fun ch => ch.entity).Nodup := by
    rw [List.map_map]
    exact hkeys
  have hgroupD : groupTotals (st.entities.map
      (fun p => (⟨ChangeType.degraded, p.1, p.2.toNat, "Natural degradation"⟩ : Change)))
      ChangeType.degraded
      = st.entities := by
    rw [groupTotals_map_shape htys hnd, List.map_map]
    exact map_toNat_id hpos
  have hgroupC : groupTotals (st.entities.map
      (fun p => (⟨ChangeType.degraded, p.1, p.2.toNat, "Natural degradation"⟩ : Change)))
      ChangeType.consumed = [] := by
    apply groupTotals_nil_of_no_type
    intro ch hch
    rw [htys ch hch]
    intro hcc
    cases hcc
  have hgroupP : groupTotals (st.entities.map
      (fun p => (⟨ChangeType.degraded, p.1, p.2.toNat, "Natural degradation"⟩ : Change)))
      ChangeType.produced = [] := by
    apply groupTotals_nil_of_no_type
    intro ch hch
    rw [htys ch hch]
    intro hcc
    cases hcc
  unfold apply_all_changes
  rw [hgroupC, hgroupP, hgroupD]
  simp only [List.foldl_nil]
  exact foldl_subDel_self st.entities hkeys

/-- C8 witness: three copies of "v" at rate 1, feedback level 40, no rules. -/
theorem full_degradation_extinction_witness :
    (extCfg.transition_rules = []
      ∧ (extSt.entities.map Prod.fst).Nodup
      ∧ (∀ p ∈ extSt.entities, 0 < p.2)
      ∧ (∀ p ∈ extSt.entities, rateOf extCfg.degradation_rates p.1 = 1)
      ∧ (∀ i, rZero i < 1))
    ∧ (process_turn extCfg extSt rZero 0).state.entities = [] :=
  ⟨⟨rfl, by decide, by decide, by decide, fun i => by norm_num [rZero]⟩,
    full_degradation_extinction extCfg extSt rZero 0 rfl (by decide) (by decide)
      (by decide) fun i => by norm_num [rZero]⟩

/-- C2 (amended): within one turn, provided every rule's consumed inputs name
pairwise-distinct entities, the per-entity sum of consumed amounts across all
rules never exceeds the post-degradation available count, and the working
copy after the pass equals the post-degradation copy minus exactly the
consumed deltas (produced amounts are never added mid-pass). -/
theorem no_double_spend (cfg : SimCfg) (st : SimState) (r : Nat → ℚ) (k : Nat)
    (hpos : ∀ p ∈ st.entities, 0 < p.2)
    (hdist : ∀ ru ∈ cfg.transition_rules,
      ((ru.inputs.filter fun i => i.consumed).map fun i => i.entity).Nodup) :
    ∀ e, (consumedCount (process_turn cfg st r k).changes e : Int)
          ≤ Pop.getD (post_degradation_working cfg st r k) e
      ∧ Pop.getD (transition_pass cfg st r k).working e
          = Pop.getD (post_degradation_working cfg st r k) e
            - (consumedCount (process_turn cfg st r k).changes e : Int) := by
  intro e
  have hposw : ∀ p ∈ post_degradation_working cfg st r k, 0 < p.2 :=
    pos_degrade_working hpos _
  have hdeg0 : consumedCount (apply_degradation cfg st.interferon_level st.entities r k).1 e = 0 := by
    apply consumedCount_eq_zero
    intro ch hch hcc
    have hd := apply_degradation_go_types cfg st.interferon_level r st.entities k ch hch
    rw [hd] at hcc
    cases hcc.1
  have hch : consumedCount (process_turn cfg st r k).changes e
      = consumedCount (transition_pass cfg st r k).changes e := by
    have hsplit : (process_turn cfg st r k).changes
        = (apply_degradation cfg st.interferon_level st.entities r k).1
          ++ (transition_pass cfg st r k).changes := rfl
    rw [hsplit, consumedCount_append, hdeg0, Nat.zero_add]
  rcases run_rules_spend cfg.transition_rules (post_degradation_working cfg st r k) r
    (apply_degradation cfg st.interferon_level st.entities r k).2 hposw hdist with ⟨hEq, hPos⟩
  constructor
  · rw [hch]
    exact run_rules_spend_le cfg.transition_rules (post_degradation_working cfg st r k) r
      (apply_degradation cfg st.interferon_level st.entities r k).2 hposw hdist e
  · rw [hch]
    exact hEq e

/-- C2 witness: the witness configuration (one rule, distinct consumed
inputs) over five "x". -/
theorem no_double_spend_witness :
    ((∀ p ∈ wSt.entities, 0 < p.2)
      ∧ (∀ ru ∈ wCfg.transition_rules,
          ((ru.inputs.filter fun i => i.consumed).map fun i => i.entity).Nodup))
    ∧ ∀ e, (consumedCount (process_turn wCfg wSt rZero 0).changes e : Int)
          ≤ Pop.getD (post_degradation_working wCfg wSt rZero 0) e
      ∧ Pop.getD (transition_pass wCfg wSt rZero 0).working e
          = Pop.getD (post_degradation_working wCfg wSt rZero 0) e
            - (consumedCount (process_turn wCfg wSt rZero 0).changes e : Int) :=
  ⟨⟨by decide, by decide⟩, no_double_spend wCfg wSt rZero 0 (by decide) (by decide)⟩

/-- C2 counterexample: a rule whose input list names the same consumed entity
twice. With ten "x" available after degradation and 6 successful slots, the
rule's change records consume 6 + 6 = 12 "x" — more than the 10 available —
so the claimed bound fails as stated (without a distinct-entities proviso),
while the engine completes the turn without error. -/
theorem no_double_spend_cex :
    (process_turn dupCfg dupSt rSixOfTen 0).changes
      = [⟨ChangeType.consumed, "x", 6, "R"⟩, ⟨ChangeType.consumed, "x", 6, "R"⟩]
    ∧ post_degradation_working dupCfg dupSt rSixOfTen 0 = dupSt.entities
    ∧ Pop.getD (post_degradation_working dupCfg dupSt rSixOfTen 0) "x"
        < (consumedCount (process_turn dupCfg dupSt rSixOfTen 0).changes "x" : Int) := by
  have hrate : final_degradation_rate dupCfg.degradation_rates dupCfg.db
      dupSt.interferon_level "x" = 0 := by
    norm_num [dupCfg, dupSt, final_degradation_rate, rateOf,
      calculate_interferon_degradation_bonus]
  have hdeg : apply_degradation dupCfg dupSt.interferon_level dupSt.entities rSixOfTen 0
      = ([], 0) := by
    show apply_degradation_go dupCfg dupSt.interferon_level rSixOfTen [("x", 10)] 0 = ([], 0)
    rw [apply_degradation_go, if_neg (by decide), if_pos (le_of_eq hrate)]
    rfl
  have hpdw : post_degradation_working dupCfg dupSt rSixOfTen 0 = dupSt.entities := by
    unfold post_degradation_working
    rw [hdeg]
    rfl
  have hchs : (process_turn dupCfg dupSt rSixOfTen 0).changes
      = [⟨ChangeType.consumed, "x", 6, "R"⟩, ⟨ChangeType.consumed, "x", 6, "R"⟩] := by
    have h1 : (process_turn dupCfg dupSt rSixOfTen 0).changes
        = (apply_degradation dupCfg dupSt.interferon_level dupSt.entities rSixOfTen 0).1
          ++ (transition_pass dupCfg dupSt rSixOfTen 0).changes := rfl
    have h2 : (transition_pass dupCfg dupSt rSixOfTen 0).changes
        = (run_rules dupCfg.transition_rules (post_degradation_working dupCfg dupSt rSixOfTen 0)
            rSixOfTen
            (apply_degradation dupCfg dupSt.interferon_level dupSt.entities rSixOfTen 0).2).changes
        := rfl
    rw [h1, h2, hpdw, hdeg]
    decide
  refine ⟨hchs, hpdw, ?_⟩
  rw [hchs, hpdw]
  decide

/-- C6 counterexample: two added rules share the name "R"; the source's
modification loop (no `break`) updates both of them, so "updates exactly one
rule — the most-recently-added match" fails: the two accumulations differ,
with probabilities [0.2, 0.4] (both halved) against the claimed [0.4, 0.4]. -/
theorem modify_rule_cex :
    (assemble_transition_rules modEffects).map (fun ru => ru.probability) = [1/5, 2/5]
    ∧ (assemble_transition_rules_claim modEffects).map (fun ru => ru.probability) = [2/5, 2/5]
    ∧ assemble_transition_rules modEffects ≠ assemble_transition_rules_claim modEffects := by
  have h1 : (assemble_transition_rules modEffects).map (fun ru => ru.probability)
      = [1/5, 2/5] := by
    norm_num [assemble_transition_rules, modEffects, applyEffect, applyModification,
      pyRound_zero]
  have h2 : (assemble_transition_rules_claim modEffects).map (fun ru => ru.probability)
      = [2/5, 2/5] := by
    norm_num [assemble_transition_rules_claim, modEffects, modifyLastMatch, applyModification,
      pyRound_zero]
  refine ⟨h1, h2, ?_⟩
  intro h
  rw [h, h2] at h1
  norm_num at h1

/-- C6 (amended): a `modify_rule` effect updates every rule named `targetName`
added so far (multiplying each probability and capping at 1.0), is a no-op
when no rule by that name has been added, and the probability update is
exactly `min 1 (probability * multiplier)`. -/
theorem modify_rule_all_matches (es : List Effect) (n : String) (pm im : Option ℚ) :
    assemble_transition_rules (es ++ [Effect.modifyRule n pm im])
      = (assemble_transition_rules es).map
          (fun ru => if ru.name = n then applyModification pm im ru else ru)
    ∧ ((∀ ru ∈ assemble_transition_rules es, ru.name ≠ n) →
        assemble_transition_rules (es ++ [Effect.modifyRule n pm im])
          = assemble_transition_rules es)
    ∧ ∀ (ru : Rule) (m : ℚ),
        (applyModification (some m) im ru).probability = min 1 (ru.probability * m) := by
  have h1 : assemble_transition_rules (es ++ [Effect.modifyRule n pm im])
      = (assemble_transition_rules es).map
          (fun ru => if ru.name = n then applyModification pm im ru else ru) := by
    unfold assemble_transition_rules
    rw [List.foldl_append]
    rfl
  refine ⟨h1, ?_, ?_⟩
  · intro hnone
    rw [h1]
    have hid : ∀ ru ∈ assemble_transition_rules es,
        (if ru.name = n then applyModification pm im ru else ru) = ru :=
      fun ru hru => if_neg (hnone ru hru)
    rw [map_congr_mem hid]
    exact List.map_id _
  · intro ru m
    unfold applyModification
    cases im with
    | none => rfl
    | some mi =>
      dsimp only
      split
      · rfl
      · rfl

/-- C6 witness: modifying the absent rule name "Z" leaves the single-rule
accumulation unchanged. -/
theorem modify_rule_all_matches_witness :
    (∀ ru ∈ assemble_transition_rules oneEffect, ru.name ≠ "Z")
    ∧ assemble_transition_rules (oneEffect ++ [Effect.modifyRule "Z" (some 1) none])
        = assemble_transition_rules oneEffect := by
  have hz : ∀ ru ∈ assemble_transition_rules oneEffect, ru.name ≠ "Z" := by decide
  exact ⟨hz, (modify_rule_all_matches oneEffect "Z" (some 1) none).2.1 hz⟩

theorem efc_nil (rule : Rule) : estimate_from_consumed rule [] = 0 := by
  unfold estimate_from_consumed
  refine if_neg fun hc => ?_
  rcases hc.2.2 with ⟨ch, hch, _⟩
  cases hch

theorem estimate_nil_eq (rule : Rule) :
    estimate_applications_from_changes rule [] = 0
    ∧ estimate_applications_claim rule [] = 0 := by
  have hnoc : ¬ hasChangeOf ([] : List Change) ChangeType.consumed := by
    rintro ⟨ch, hch, _⟩
    cases hch
  have hnop : ¬ hasChangeOf ([] : List Change) ChangeType.produced := by
    rintro ⟨ch, hch, _⟩
    cases hch
  constructor
  · unfold estimate_applications_from_changes
    rw [efc_nil, if_neg (by simp), if_neg fun hc => hnop hc.2]
  · unfold estimate_applications_claim
    rw [if_neg fun hc => hnoc hc.2, if_neg hnop]

/-- C7: on the change records actually emitted by a rule application, the
recovery returns the consumed-based floor-divide minimum when the rule has
consumed inputs and consumption records exist, else the produced-based
minimum when produced records exist, else 0 (the claim-side description
`estimate_applications_claim`); and the rule's interferon generation equals
that count times its (2-decimal, non-negative) interferon amount. -/
theorem estimate_applications_spec (rule : Rule) (state : Pop) (r : Nat → ℚ) (k : Nat)
    (hin : ∀ i ∈ rule.inputs, 1 ≤ i.count)
    (hout : ∀ o ∈ rule.outputs, 1 ≤ o.count)
    (hamt0 : 0 ≤ rule.interferon_amount)
    (hfix : pyRound rule.interferon_amount 2 = rule.interferon_amount) :
    estimate_applications_from_changes rule (apply_rule_to_state rule state r k).1
      = estimate_applications_claim rule (apply_rule_to_state rule state r k).1
    ∧ process_rule_interferon_effects rule (apply_rule_to_state rule state r k).1
      = (estimate_applications_from_changes rule (apply_rule_to_state rule state r k).1 : ℚ)
        * rule.interferon_amount := by
  have hmain : estimate_applications_from_changes rule (apply_rule_to_state rule state r k).1
      = estimate_applications_claim rule (apply_rule_to_state rule state r k).1 := by
    set a := actual_applications rule (get_max_applications_from_state rule state) r k with hadef
    rcases apply_rule_changes_shape rule state r k with h | ⟨ha, h⟩
    · rw [h, (estimate_nil_eq rule).1, (estimate_nil_eq rule).2]
    · by_cases hci : (rule.inputs.filter fun i => i.consumed) = []
      · rcases houts : rule.outputs with _ | ⟨o0, orest⟩
        · have hnil : (apply_rule_to_state rule state r k).1 = [] := by
            rw [h, hci, houts]
            rfl
          rw [hnil, (estimate_nil_eq rule).1, (estimate_nil_eq rule).2]
        · rw [hci] at h
          simp only [List.map_nil, List.nil_append] at h
          have ho0 : o0 ∈ rule.outputs := by
            rw [houts]
            exact List.mem_cons_self o0 orest
          have hp : hasChangeOf (apply_rule_to_state rule state r k).1 ChangeType.produced := by
            refine ⟨⟨ChangeType.produced, o0.entity, a * o0.count, rule.name⟩, ?_, rfl⟩
            rw [h]
            exact List.mem_map_of_mem _ ho0
          have houtne : rule.outputs ≠ [] := by
            rw [houts]
            exact List.cons_ne_nil o0 orest
          have hefc : estimate_from_consumed rule (apply_rule_to_state rule state r k).1 = 0 := by
            unfold estimate_from_consumed
            exact if_neg fun hcc => hcc.2.1 hci
          have hest : estimate_applications_from_changes rule (apply_rule_to_state rule state r k).1
              = minList (rule.outputs.map fun o =>
                  producedCount (apply_rule_to_state rule state r k).1 o.entity / max 1 o.count) := by
            unfold estimate_applications_from_changes
            rw [hefc, if_neg (by simp), if_pos ⟨houtne, hp⟩]
          have hclaim : estimate_applications_claim rule (apply_rule_to_state rule state r k).1
              = minList (rule.outputs.map fun o =>
                  producedCount (apply_rule_to_state rule state r k).1 o.entity / o.count) := by
            unfold estimate_applications_claim
            rw [if_neg fun hcc => hcc.1 hci, if_pos hp]
          rw [hest, hclaim]
          exact minList_map_congr fun o ho => by rw [Nat.max_eq_right (hout o ho)]
      · have hinne : rule.inputs ≠ [] := by
          intro hnil
          apply hci
          rw [hnil]
          rfl
        obtain ⟨i0, hi0⟩ := List.exists_mem_of_ne_nil _ hci
        have hhc : hasChangeOf (apply_rule_to_state rule state r k).1 ChangeType.consumed := by
          refine ⟨⟨ChangeType.consumed, i0.entity, a * i0.count, rule.name⟩, ?_, rfl⟩
          rw [h]
          exact List.mem_append_left _ (List.mem_map_of_mem _ hi0)
        have helem : ∀ i ∈ rule.inputs.filter fun i => i.consumed,
            a ≤ consumedCount (apply_rule_to_state rule state r k).1 i.entity / max 1 i.count := by
          intro i hi
          have hc1 : 1 ≤ i.count := hin i (List.mem_filter.mp hi).1
          have hreci : (⟨ChangeType.consumed, i.entity, a * i.count, rule.name⟩ : Change)
              ∈ (apply_rule_to_state rule state r k).1 := by
            rw [h]
            exact List.mem_append_left _ (List.mem_map_of_mem _ hi)
          have hgecc : a * i.count
              ≤ consumedCount (apply_rule_to_state rule state r k).1 i.entity :=
            consumedCount_ge_mem hreci rfl
          rw [Nat.max_eq_right hc1, Nat.le_div_iff_mul_le (by omega)]
          exact hgecc
        have hminge : a ≤ minList ((rule.inputs.filter fun i => i.consumed).map
            fun i => consumedCount (apply_rule_to_state rule state r k).1 i.entity
              / max 1 i.count) := by
          apply le_minList
          · intro hnil
            exact hci (List.map_eq_nil_iff.mp hnil)
          · intro x hx
            rcases List.mem_map.mp hx with ⟨i, hi, hxeq⟩
            rw [← hxeq]
            exact helem i hi
        have hefc : estimate_from_consumed rule (apply_rule_to_state rule state r k).1
            = minList ((rule.inputs.filter fun i => i.consumed).map
                fun i => consumedCount (apply_rule_to_state rule state r k).1 i.entity
                  / max 1 i.count) := by
          unfold estimate_from_consumed
          exact if_pos ⟨hinne, hci, hhc⟩
        have hne0 : estimate_from_consumed rule (apply_rule_to_state rule state r k).1 ≠ 0 := by
          rw [hefc]
          omega
        have hest : estimate_applications_from_changes rule (apply_rule_to_state rule state r k).1
            = minList ((rule.inputs.filter fun i => i.consumed).map
                fun i => consumedCount (apply_rule_to_state rule state r k).1 i.entity
                  / max 1 i.count) := by
          unfold estimate_applications_from_changes
          rw [if_pos hne0, hefc]
        have hclaim : estimate_applications_claim rule (apply_rule_to_state rule state r k).1
            = minList ((rule.inputs.filter fun i => i.consumed).map
                fun i => consumedCount (apply_rule_to_state rule state r k).1 i.entity
                  / i.count) := by
          unfold estimate_applications_claim
          rw [if_pos ⟨hci, hhc⟩]
        rw [hest, hclaim]
        exact minList_map_congr fun i hi => by
          rw [Nat.max_eq_right (hin i (List.mem_filter.mp hi).1)]
  refine ⟨hmain, ?_⟩
  rcases eq_or_lt_of_le hamt0 with hz | hgt
  · rw [interferon_effects_of_nonpos (le_of_eq hz.symm) _, ← hz, mul_zero]
  · unfold process_rule_interferon_effects
    rw [if_neg (not_le.mpr hgt)]
    have hz100 := pyRound_two_mul_int hfix
    have hgoal : ((estimate_applications_from_changes rule (apply_rule_to_state rule state r k).1 : ℚ)
          * rule.interferon_amount) * ((10 ^ 2 : ℕ) : ℚ)
        = (((estimate_applications_from_changes rule (apply_rule_to_state rule state r k).1 : Int)
            * roundHalfEven (rule.interferon_amount * 100) : Int) : ℚ) := by
      push_cast
      rw [← hz100]
      ring
    exact pyRound_eq_self hgoal

/-- C7 witness: the witness rule (consumed input, interferon amount 0.5)
applied to five "x" with the all-zero draw stream (2 applications). -/
theorem estimate_applications_spec_witness :
    ((∀ i ∈ wRule.inputs, 1 ≤ i.count) ∧ (∀ o ∈ wRule.outputs, 1 ≤ o.count)
      ∧ 0 ≤ wRule.interferon_amount ∧ pyRound wRule.interferon_amount 2 = wRule.interferon_amount)
    ∧ estimate_applications_from_changes wRule (apply_rule_to_state wRule [("x", 5)] rZero 0).1
        = estimate_applications_claim wRule (apply_rule_to_state wRule [("x", 5)] rZero 0).1
    ∧ process_rule_interferon_effects wRule (apply_rule_to_state wRule [("x", 5)] rZero 0).1
        = (estimate_applications_from_changes wRule (apply_rule_to_state wRule [("x", 5)] rZero 0).1 : ℚ)
          * wRule.interferon_amount :=
  ⟨⟨by decide, by decide, by norm_num [wRule],
      pyRound_eq_self (z := 50) (by norm_num [wRule])⟩,
    estimate_applications_spec wRule [("x", 5)] rZero 0 (by decide) (by decide)
      (by norm_num [wRule]) (pyRound_eq_self (z := 50) (by norm_num [wRule]))⟩
